import Mathlib

/-!
Verification of the hierarchical parameter state store of `raddar`
(`src/core/state_dict.rs`), against its natural-language specification.

The Rust data structure is a reference-counted tree of nodes
(`StateDictData`): each node has a `name : String`, a weak parent
back-reference, and a `parameters` hash map from local names to either a
shared tensor cell (`StateValue::Tensor`) or a nested child tree
(`StateValue::ChildStateDict`).

Shallow embedding conventions:

* Nodes live in an explicit store `NodeStore := List StateDictData`;
  a `NodeId` is an index into the store.  Allocation (`Arc::new`) appends
  to the store; nodes are never dropped (none of the verified claims
  involve teardown), so a weak back-reference `parent : Option NodeId`
  upgrades successfully exactly when it is `some`.
* A shared tensor cell `Arc<Mutex<Tensor>>` is a `CellId := Nat`; the
  contents of all cells form a `CellStore := CellId → ℚ` (the numeric
  payload of a tensor is opaque to the state-dict code, so one rational
  number stands for it; `tensor.copy_(&value)` is a store update).
  Cell identity (`Arc` pointer identity) is `CellId` equality.
* A Rust `HashMap` is an association list with unique keys; `insert` is
  `insertAL` (replace-or-append), `get` is `lookupAL`.  Iteration order of
  a `HashMap` is arbitrary; the model fixes the list order.
* `from_map` first collects its input into a `BTreeMap`, i.e. iterates
  keys in lexicographic order: the model sorts with `List.insertionSort`
  on the key (Rust compares `String`s by UTF-8 bytes, which coincides
  with the codepoint-lexicographic order used by Lean's `String` order).
* The recursive Rust functions (`from_map`, `to_map`, `to_vec`, `load`,
  `path`) are modelled with an explicit fuel parameter; `none` models
  nontermination or a `panic!`/`unwrap` failure.  Sufficient fuel is
  supplied by the wrappers and justified by lemmas.
-/

namespace Raddar

/-! ## Dotted keys: `key.split(".")` and `join(".")` -/

/-- Model of Rust `str::split('.')` on the character list of a key:
`"a.b"` ↦ `["a","b"]`, `""` ↦ `[""]`, `"a."` ↦ `["a",""]`, `"a..b"` ↦
`["a","","b"]`.  Never returns `[]`. -/
def splitDot : List Char → List (List Char)
  | [] => [[]]
  | c :: rest =>
    match splitDot rest with
    | [] => [[]]
    | s :: ss => if c = '.' then [] :: s :: ss else (c :: s) :: ss

/-- Model of `itertools::join(".")`: interleave `'.'` between segments. -/
def joinDot : List (List Char) → List Char
  | [] => []
  | [s] => s
  | s :: s' :: ss => s ++ '.' :: joinDot (s' :: ss)

/-- First `.`-separated segment of a key (`split.next().unwrap()`). -/
def firstSeg (k : String) : String := ⟨(splitDot k.data).headD []⟩

/-- Everything after the first segment: `key.split(".").skip(1).join(".")`. -/
def restAfter (k : String) : String := ⟨joinDot ((splitDot k.data).drop 1)⟩

/-- Whether `split.next()` yields a second item, i.e. the key nests. -/
def isDotted (k : String) : Bool :=
  match splitDot k.data with
  | _ :: _ :: _ => true
  | _ => false

/-! ## Data model -/

/-- `StateValue`: a tagged entry of a node's `parameters` map — either a
shared tensor cell or a nested child state dict (held by `NodeId`). -/
inductive StateValue where
  | tensor (cell : Nat)
  | childStateDict (node : Nat)
deriving DecidableEq

/-- `StateDictData`: one tree node — `name`, weak parent back-reference,
and the `parameters` map (association list with the `HashMap` contract). -/
structure StateDictData where
  name : String
  parent : Option Nat
  parameters : List (String × StateValue)
deriving DecidableEq

/-- The node heap: `NodeId`s are indices; `Arc::new` appends. -/
abbrev NodeStore := List StateDictData

/-- Contents of every shared tensor cell (`Arc<Mutex<Tensor>>`). -/
abbrev CellStore := Nat → ℚ

/-- `HashMap::insert`: replace the entry with this key, or append. -/
def insertAL (k : String) (v : α) : List (String × α) → List (String × α)
  | [] => [(k, v)]
  | (k', v') :: rest => if k' = k then (k, v) :: rest else (k', v') :: insertAL k v rest

/-- `HashMap::get`. -/
def lookupAL (k : String) : List (String × α) → Option α
  | [] => none
  | (k', v') :: rest => if k' = k then some v' else lookupAL k rest

/-- Apply `f` to the node at index `n` (no-op on an invalid id, which the
Rust side cannot produce: every `StateDict` handle is a live `Arc`). -/
def modifyNode (st : NodeStore) (n : Nat) (f : StateDictData → StateDictData) : NodeStore :=
  match st[n]? with
  | some d => st.set n (f d)
  | none => st

/-- Overwrite a node's parent back-reference (`*parent.write() = …`). -/
def setParent (st : NodeStore) (n : Nat) (p : Option Nat) : NodeStore :=
  modifyNode st n (fun d => { d with parent := p })

/-- Overwrite a node's `parameters` map (`*parameters.write() = …`). -/
def setParams (st : NodeStore) (n : Nat) (ps : List (String × StateValue)) : NodeStore :=
  modifyNode st n (fun d => { d with parameters := ps })

/-- Read a node's `parameters` map. -/
def getParams (st : NodeStore) (n : Nat) : List (String × StateValue) :=
  ((st[n]?).map StateDictData.parameters).getD []

/-- `StateDict::new()`: allocate an empty unnamed root with no parent. -/
def newNode (st : NodeStore) : Nat × NodeStore :=
  (st.length, st ++ [⟨"", none, []⟩])

/-! ## from_map -/

/-- Key order used by `BTreeMap<String, _>` iteration, on `(key, value)`
pairs: lexicographic on the characters (Rust compares UTF-8 bytes, and
byte order coincides with codepoint order for UTF-8). -/
def keyLE (a b : String × Nat) : Prop := a.1.data ≤ b.1.data

instance : DecidableRel keyLE := fun a b => inferInstanceAs (Decidable (a.1.data ≤ b.1.data))

/-- Sort the flat map's entries by key, as `BTreeMap` iteration does. -/
def sortKeys (m : List (String × Nat)) : List (String × Nat) :=
  List.insertionSort keyLE m

/-- Strict key order; on entries with pairwise-distinct keys it agrees
with `keyLE` and is antisymmetric, which pins the sorted order down. -/
def keyLT (a b : String × Nat) : Prop := a.1.data < b.1.data

instance : IsTotal (String × Nat) keyLE := ⟨fun a b => le_total a.1.data b.1.data⟩

instance : IsTrans (String × Nat) keyLE := ⟨fun _ _ _ h1 h2 => le_trans h1 h2⟩

instance : IsAntisymm (String × Nat) keyLT := ⟨fun _ _ h1 h2 => absurd h2 (lt_asymm h1)⟩

/-- The body of `from_map`'s `for (key, value) in parameters_map` loop,
carrying `parameters` (the map under construction) and
`current_child`/`current_child_name` (the pending sub-map, `none` when no
child is being accumulated).  `recur` is the recursive
`StateDict::from_map(child)` call (supplied with one unit less fuel by
`fromMapFuel`).  The empty-input case performs the final flush and the
concluding `*this.parameters.write() = parameters`. -/
def fromGo (recur : NodeStore → List (String × Nat) → Option (Nat × NodeStore)) (thisId : Nat) :
    List (String × Nat) → NodeStore →
    List (String × StateValue) → Option (String × List (String × Nat)) →
    Option (Nat × NodeStore)
  | [], st, params, cur =>
    match cur with
    | none => some (thisId, setParams st thisId params)
    | some (cn, cm) =>
      match recur st cm with
      | none => none
      | some (cid, st') =>
        some (thisId, setParams (setParent st' cid (some thisId)) thisId
          (insertAL cn (.childStateDict cid) params))
  | (k, v) :: rest, st, params, cur =>
    if isDotted k then
      match cur with
      | some (cn, cm) =>
        if firstSeg k = cn then
          fromGo recur thisId rest st params (some (cn, insertAL (restAfter k) v cm))
        else
          match recur st cm with
          | none => none
          | some (cid, st') =>
            fromGo recur thisId rest (setParent st' cid (some thisId))
              (insertAL cn (.childStateDict cid) params)
              (some (firstSeg k, insertAL (restAfter k) v []))
      | none =>
        fromGo recur thisId rest st params (some (firstSeg k, insertAL (restAfter k) v []))
    else
      fromGo recur thisId rest st (insertAL (firstSeg k) (.tensor v) params) cur

/-- `StateDict::from_map`, fuelled.  Allocates the fresh root (`new()`),
sorts the entries (`BTreeMap` collection), and runs the grouping loop. -/
def fromMapFuel : Nat → NodeStore → List (String × Nat) → Option (Nat × NodeStore)
  | 0, _, _ => none
  | f + 1, st, m =>
    fromGo (fromMapFuel f) st.length (sortKeys m) (st ++ [⟨"", none, []⟩]) [] none

/-- Number of `'.'` characters in a key; nesting depth of the built tree
is at most one more than the maximum over all keys. -/
def dotsIn (k : String) : Nat := k.data.count '.'

/-- Fuel bound for `from_map`. -/
def maxDots (m : List (String × Nat)) : Nat :=
  m.foldr (fun kv acc => max (dotsIn kv.1) acc) 0

/-- `StateDict::from_map` with sufficient fuel (the Rust recursion is
bounded by the nesting depth of the keys; see `fromMapFuel_sufficient`).
Returns the fresh root's id and the extended store. -/
def fromMap (st : NodeStore) (m : List (String × Nat)) : Nat × NodeStore :=
  (fromMapFuel (maxDots m + 1) st m).getD (st.length, st)

/-- `StateDict::append_child`: rewrite the child's parent back-reference
to `self`, then insert the child into `self.parameters` under the name. -/
def appendChild (st : NodeStore) (selfId : Nat) (moduleName : String) (childId : Nat) :
    NodeStore :=
  let st1 := setParent st childId (some selfId)
  setParams st1 selfId (insertAL moduleName (.childStateDict childId) (getParams st1 selfId))

/-! ## path, tensor, child_state_dict -/

/-- `StateDictData::path`, fuelled: walk parent back-references upward;
an unresolvable back-reference reports the sentinel `"root"`.  `none`
models the infinite recursion a cyclic parent chain would cause. -/
def pathFuel : Nat → NodeStore → Nat → Option String
  | 0, _, _ => none
  | f + 1, st, n =>
    match st[n]? with
    | none => none
    | some d =>
      match d.parent with
      | none => some "root"
      | some p =>
        match pathFuel f st p with
        | none => none
        | some pp => some (pp ++ "." ++ d.name)

/-- `path` with fuel sufficient for any acyclic parent chain. -/
def path (st : NodeStore) (n : Nat) : Option String :=
  pathFuel (st.length + 1) st n

/-- `StateDictData::tensor`: look up a leaf cell, or fail with
`anyhow!("No such parameter: {} in {}", key, self.path())`. -/
def tensorFn (st : NodeStore) (n : Nat) (key : String) : Option (Except String Nat) :=
  match st[n]? with
  | none => none
  | some d =>
    match lookupAL key d.parameters with
    | some (.tensor c) => some (.ok c)
    | _ =>
      match pathFuel (st.length + 1) st n with
      | none => none
      | some p => some (.error ("No such parameter: " ++ key ++ " in " ++ p))

/-- `StateDictData::child_state_dict`: look up a child node, or fail with
`anyhow!("No such module: {} in {}", module_name, self.path())`. -/
def childDictFn (st : NodeStore) (n : Nat) (moduleName : String) : Option (Except String Nat) :=
  match st[n]? with
  | none => none
  | some d =>
    match lookupAL moduleName d.parameters with
    | some (.childStateDict c) => some (.ok c)
    | _ =>
      match pathFuel (st.length + 1) st n with
      | none => none
      | some p => some (.error ("No such module: " ++ moduleName ++ " in " ++ p))

/-! ## to_map, to_vec -/

/-- The body of `to_map`'s loop over `self.parameters()`, accumulating
the flat `parameters` map; `recur` is the recursive `to_map` call on a
child. -/
def toMapGo (recur : Nat → Option (List (String × Nat))) :
    List (String × StateValue) → List (String × Nat) → Option (List (String × Nat))
  | [], acc => some acc
  | (k, .tensor c) :: rest, acc => toMapGo recur rest (insertAL k c acc)
  | (k, .childStateDict cid) :: rest, acc =>
    match recur cid with
    | none => none
    | some sub =>
      toMapGo recur rest (sub.foldl (fun a p => insertAL (k ++ "." ++ p.1) p.2 a) acc)

/-- `StateDictData::to_map`, fuelled: flatten the subtree back to dotted
keys (child keys re-prefixed with `key ++ "."`). -/
def toMapFuel : Nat → NodeStore → Nat → Option (List (String × Nat))
  | 0, _, _ => none
  | f + 1, st, n =>
    match st[n]? with
    | none => none
    | some d => toMapGo (toMapFuel f st) d.parameters []

/-- `to_map` with fuel sufficient for the trees built by this module. -/
def toMap (st : NodeStore) (n : Nat) : Option (List (String × Nat)) :=
  toMapFuel (st.length + 1) st n

/-- The body of `to_vec`'s loop; `recur` is the recursive `to_vec` call
on a child. -/
def toVecGo (recur : Nat → Option (List Nat)) :
    List (String × StateValue) → List Nat → Option (List Nat)
  | [], acc => some acc
  | (_, .tensor c) :: rest, acc => toVecGo recur rest (acc ++ [c])
  | (_, .childStateDict cid) :: rest, acc =>
    match recur cid with
    | none => none
    | some v => toVecGo recur rest (acc ++ v)

/-- `StateDictData::to_vec`, fuelled: the leaf cells of the subtree in
entry order (children flattened in place). -/
def toVecFuel : Nat → NodeStore → Nat → Option (List Nat)
  | 0, _, _ => none
  | f + 1, st, n =>
    match st[n]? with
    | none => none
    | some d => toVecGo (toVecFuel f st) d.parameters []

/-- `to_vec` with canonical fuel. -/
def toVec (st : NodeStore) (n : Nat) : Option (List Nat) :=
  toVecFuel (st.length + 1) st n

/-! ## load -/

/-- The body of `load`'s `for (key, value) in &*state_dict.parameters()`
loop: `slfParams` is `self`'s map, `srcParams` the source map used by the
fresh `state_dict.child_state_dict(key)` lookup, the third list the
remaining iteration, and `recur` the recursive `load` on a child pair. -/
def loadGo (recur : CellStore → Nat → Nat → Option CellStore)
    (slfParams srcParams : List (String × StateValue)) :
    List (String × StateValue) → CellStore → Option CellStore
  | [], cs => some cs
  | (key, value) :: rest, cs =>
    match lookupAL key slfParams with
    | some (.tensor tcell) =>
      match value with
      | .tensor scell =>
        loadGo recur slfParams srcParams rest (Function.update cs tcell (cs scell))
      | _ => loadGo recur slfParams srcParams rest cs
    | some (.childStateDict childId) =>
      match lookupAL key srcParams with
      | some (.childStateDict srcChild) =>
        match recur cs childId srcChild with
        | none => none
        | some cs' => loadGo recur slfParams srcParams rest cs'
      | _ => none
    | none => loadGo recur slfParams srcParams rest cs

/-- `StateDictData::load`, fuelled.  Structure is never modified (the
Rust code only calls `tensor.copy_`), so only the cell store evolves.
`none` models a `panic!` — which the Rust code does reach, via
`state_dict.child_state_dict(key).unwrap()`, whenever `self` holds a
child and the source a tensor under the same key. -/
def loadFuel : Nat → NodeStore → CellStore → Nat → Nat → Option CellStore
  | 0, _, _, _, _ => none
  | f + 1, st, cs, selfId, srcId =>
    match st[srcId]?, st[selfId]? with
    | some src, some slf => loadGo (loadFuel f st) slf.parameters src.parameters src.parameters cs
    | _, _ => none

/-- `load` with canonical fuel. -/
def load (st : NodeStore) (cs : CellStore) (selfId srcId : Nat) : Option CellStore :=
  loadFuel (st.length + 1) st cs selfId srcId

/-- Loop body for `loadWFuel`, mirroring `loadGo`. -/
def loadWGo (recur : Nat → Nat → Option (List (Nat × Nat)))
    (slfParams srcParams : List (String × StateValue)) :
    List (String × StateValue) → Option (List (Nat × Nat))
  | [] => some []
  | (key, value) :: rest =>
    match lookupAL key slfParams with
    | some (.tensor tcell) =>
      match value with
      | .tensor scell =>
        (loadWGo recur slfParams srcParams rest).map (fun ws => (tcell, scell) :: ws)
      | _ => loadWGo recur slfParams srcParams rest
    | some (.childStateDict childId) =>
      match lookupAL key srcParams with
      | some (.childStateDict srcChild) =>
        match recur childId srcChild with
        | none => none
        | some w1 => (loadWGo recur slfParams srcParams rest).map (fun ws => w1 ++ ws)
      | _ => none
    | none => loadWGo recur slfParams srcParams rest

/-- The sequence of `(target cell, source cell)` pairs that `load` copies,
in traversal order; `none` on the same inputs on which `load` panics.
The control flow of `load` never depends on cell contents, so this is a
function of the stores' structure alone. -/
def loadWFuel : Nat → NodeStore → Nat → Nat → Option (List (Nat × Nat))
  | 0, _, _, _ => none
  | f + 1, st, selfId, srcId =>
    match st[srcId]?, st[selfId]? with
    | some src, some slf => loadWGo (loadWFuel f st) slf.parameters src.parameters src.parameters
    | _, _ => none

/-- Perform a list of cell copies in order (each copy reads the source
cell's current contents, as `tensor.copy_(&value)` does). -/
def applyCopies (cs : CellStore) (ws : List (Nat × Nat)) : CellStore :=
  ws.foldl (fun c p => Function.update c p.1 (c p.2)) cs

/-! ## Proof devices for the `from_map` loop

The loop of `from_map` interleaves two concerns: grouping the sorted keys
by first segment, and allocating child nodes in the store.  For the
proofs the two are separated: `grouping` computes the pure sequence of
"emissions" (leaf insertions and flushed child sub-maps) the loop
performs, and `realize` executes such a sequence against the store;
`fromGo_eq_realize` proves the factoring exact. -/

/-- One insertion into `parameters` performed by `from_map`'s loop:
either a leaf under an undotted key, or a flushed child group with
its accumulated sub-map. -/
inductive Emission where
  | leafE (k : String) (v : Nat)
  | groupE (cn : String) (cm : List (String × Nat))
deriving DecidableEq

/-- The sequence of emissions of `from_map`'s loop on input `l`, with
pending child `cur` (name and accumulated sub-map). -/
def grouping : Option (String × List (String × Nat)) → List (String × Nat) → List Emission
  | cur, [] =>
    match cur with
    | none => []
    | some (cn, cm) => [.groupE cn cm]
  | cur, (k, v) :: rest =>
    if isDotted k then
      match cur with
      | some (cn, cm) =>
        if firstSeg k = cn then grouping (some (cn, insertAL (restAfter k) v cm)) rest
        else .groupE cn cm :: grouping (some (firstSeg k, insertAL (restAfter k) v [])) rest
      | none => grouping (some (firstSeg k, insertAL (restAfter k) v [])) rest
    else .leafE (firstSeg k) v :: grouping cur rest

/-- Execute a sequence of emissions: leaves are inserted directly, groups
are built by the recursive `from_map` call (`recur`), re-parented to
`thisId` and inserted; at the end the accumulated map is written to
`thisId`'s `parameters`. -/
def realize (recur : NodeStore → List (String × Nat) → Option (Nat × NodeStore)) (thisId : Nat) :
    List Emission → NodeStore → List (String × StateValue) → Option (Nat × NodeStore)
  | [], st, params => some (thisId, setParams st thisId params)
  | .leafE k v :: es, st, params => realize recur thisId es st (insertAL k (.tensor v) params)
  | .groupE cn cm :: es, st, params =>
    match recur st cm with
    | none => none
    | some (cid, st') =>
      realize recur thisId es (setParent st' cid (some thisId))
        (insertAL cn (.childStateDict cid) params)

/-- The `parameters` name under which an emission is inserted. -/
def emissionName : Emission → String
  | .leafE k _ => k
  | .groupE cn _ => cn

/-- The flat keys a pending child stands for. -/
def pendOf : Option (String × List (String × Nat)) → List (String × Nat)
  | none => []
  | some (cn, cm) => cm.map (fun rv => (cn ++ "." ++ rv.1, rv.2))

/-- The flat keys an emission sequence stands for. -/
def unGroup : List Emission → List (String × Nat)
  | [] => []
  | .leafE k v :: es => (k, v) :: unGroup es
  | .groupE cn cm :: es => cm.map (fun rv => (cn ++ "." ++ rv.1, rv.2)) ++ unGroup es

/-- Relates a `parameters` map to its flat export, given that every
child's recursive `to_map` (at fuel `g`) succeeds: leaves contribute
their own entry, children contribute their re-prefixed export. -/
inductive FlatRel (g : Nat) (st : NodeStore) :
    List (String × StateValue) → List (String × Nat) → Prop
  | nil : FlatRel g st [] []
  | tensor (k : String) (c : Nat) {rest flat} : FlatRel g st rest flat →
      FlatRel g st ((k, .tensor c) :: rest) ((k, c) :: flat)
  | child (k : String) (cid : Nat) {sub rest flat} : toMapFuel g st cid = some sub →
      FlatRel g st rest flat →
      FlatRel g st ((k, .childStateDict cid) :: rest)
        (sub.map (fun p => (k ++ "." ++ p.1, p.2)) ++ flat)

/-! ## Specification-side predicates -/

/-- The keys of an association list are pairwise distinct (the `HashMap`
contract for `from_map`'s input and every `parameters` map). -/
def NodupKeys (l : List (String × α)) : Prop :=
  l.Pairwise (fun a b => a.1 ≠ b.1)

/-- No dotted key of the flat map has an empty `.`-separated segment
(the spec's well-formedness condition on dotted keys). -/
def NoEmptySegs (m : List (String × Nat)) : Prop :=
  ∀ kv ∈ m, ([] : List Char) ∉ splitDot kv.1.data

/-- No key of the flat map is a proper dotted prefix of another key
(`k` and `k ++ "." ++ r` never both occur). -/
def PrefixFree (m : List (String × Nat)) : Prop :=
  ∀ kv ∈ m, ∀ kv' ∈ m, ¬ (kv.1.data ++ ['.']) <+: kv'.1.data

/-- The child-entry relation of the store: `a` has `b` as the child value
of some entry of its `parameters` map. -/
def edge (st : NodeStore) (a b : Nat) : Prop :=
  ∃ d, st[a]? = some d ∧ ∃ k, (k, StateValue.childStateDict b) ∈ d.parameters

/-- No node of the store is its own strict ancestor via child entries. -/
def Acyclic (st : NodeStore) : Prop :=
  ∀ n, ¬ Relation.TransGen (edge st) n n

/-- Every attached child's parent back-reference resolves to the node
whose `parameters` map contains it (invariant 1 of the spec, in the
direction `containment → back-reference`; uniqueness of the container
follows, since two containers would both equal the back-reference). -/
def BackrefConsistent (st : NodeStore) : Prop :=
  ∀ p d, st[p]? = some d → ∀ kv ∈ d.parameters, ∀ c, kv.2 = StateValue.childStateDict c →
    ∃ dc, st[c]? = some dc ∧ dc.parent = some p

/-- Structural well-formedness of a node created by `from_map`: its
sibling names are distinct, and each of its child entries points at a
strictly larger (hence freshly allocated) id whose parent back-reference
resolves to this node. -/
def NodeOK (st : NodeStore) (j : Nat) : Prop :=
  ∀ d, st[j]? = some d →
    NodupKeys d.parameters ∧
    ∀ kv ∈ d.parameters, ∀ c, kv.2 = StateValue.childStateDict c →
      j < c ∧ c < st.length ∧ ∃ dc, st[c]? = some dc ∧ dc.parent = some j

/-- Invariant of the `parameters` accumulator inside `from_map`'s loop
for node `thisId`: every child entry flushed so far points at a fresh id
above `thisId` whose parent back-reference is `thisId`. -/
def ChildEntriesOK (thisId : Nat) (st : NodeStore) (params : List (String × StateValue)) : Prop :=
  ∀ kv ∈ params, ∀ c, kv.2 = StateValue.childStateDict c →
    thisId < c ∧ c < st.length ∧ ∃ dc, st[c]? = some dc ∧ dc.parent = some thisId

instance (m : List (String × Nat)) : Decidable (NoEmptySegs m) :=
  inferInstanceAs (Decidable (∀ kv ∈ m, ([] : List Char) ∉ splitDot kv.1.data))

instance (l : List (String × α)) : Decidable (NodupKeys l) :=
  inferInstanceAs (Decidable (l.Pairwise fun (a b : String × α) => a.1 ≠ b.1))

instance (m : List (String × Nat)) : Decidable (PrefixFree m) :=
  inferInstanceAs (Decidable (∀ kv ∈ m, ∀ kv' ∈ m, ¬ (kv.1.data ++ ['.']) <+: kv'.1.data))

/-! ## Basic kit lemmas -/

theorem set_of_getElem? {l : List α} {n : Nat} {a : α} (h : l[n]? = some a) : l.set n a = l := by
  induction l generalizing n with
  | nil => simp at h
  | cons x xs ih =>
    cases n with
    | zero => simp at h; simp [h]
    | succ m => simp at h ⊢; exact ih h

theorem getElem?_modifyNode_self (st : NodeStore) (n : Nat) (f : StateDictData → StateDictData) :
    (modifyNode st n f)[n]? = (st[n]?).map f := by
  unfold modifyNode
  cases h : st[n]? with
  | none => simp [h]
  | some d =>
    have hn : n < st.length := by
      by_contra hc
      rw [List.getElem?_eq_none (by omega)] at h
      exact Option.noConfusion h
    simp [List.getElem?_set, hn]

theorem getElem?_modifyNode_ne (st : NodeStore) {m n : Nat} (f : StateDictData → StateDictData)
    (h : n ≠ m) : (modifyNode st n f)[m]? = st[m]? := by
  unfold modifyNode
  cases h' : st[n]? with
  | none => rfl
  | some d => exact List.getElem?_set_ne h

theorem modifyNode_eq_self {st : NodeStore} {n : Nat} {f : StateDictData → StateDictData}
    (h : ∀ d, st[n]? = some d → f d = d) : modifyNode st n f = st := by
  unfold modifyNode
  cases h' : st[n]? with
  | none => rfl
  | some d =>
    show st.set n (f d) = st
    rw [h d h']
    exact set_of_getElem? h'

theorem getParams_eq {st : NodeStore} {n : Nat} {d : StateDictData} (h : st[n]? = some d) :
    getParams st n = d.parameters := by
  unfold getParams
  rw [h]
  rfl

theorem length_modifyNode (st : NodeStore) (n : Nat) (f : StateDictData → StateDictData) :
    (modifyNode st n f).length = st.length := by
  unfold modifyNode
  cases st[n]? <;> simp

theorem insertAL_idem (k : String) (v : α) (l : List (String × α)) :
    insertAL k v (insertAL k v l) = insertAL k v l := by
  induction l with
  | nil => simp [insertAL]
  | cons x xs ih =>
    by_cases h : x.1 = k
    · simp [insertAL, h]
    · simp [insertAL, h, ih]

theorem lookupAL_insertAL_self (k : String) (v : α) (l : List (String × α)) :
    lookupAL k (insertAL k v l) = some v := by
  induction l with
  | nil => simp [insertAL, lookupAL]
  | cons x xs ih =>
    by_cases h : x.1 = k
    · simp [insertAL, h, lookupAL]
    · simp [insertAL, h, lookupAL, ih]

theorem lookupAL_insertAL_ne {k k' : String} (h : k' ≠ k) (v : α) (l : List (String × α)) :
    lookupAL k' (insertAL k v l) = lookupAL k' l := by
  induction l with
  | nil =>
    show (if k = k' then some v else none) = none
    rw [if_neg (Ne.symm h)]
  | cons x xs ih =>
    cases x with
    | mk xk xv =>
      by_cases hx : xk = k
      · subst hx
        simp [insertAL, lookupAL, (Ne.symm h : xk ≠ k')]
      · simp [insertAL, hx, lookupAL, ih]

/-! ## Claim C2 (code bug): `load` panics on a child/leaf tag mismatch

The claim (and the spec, three times over) says any tag mismatch is
silently skipped.  The code's child arm runs
`state_dict.child_state_dict(key.to_owned()).unwrap()`: when `self` holds
a child under `key` but the source holds a tensor there,
`child_state_dict` returns `Err`, and `unwrap` panics.  The failing input
is exactly the spec's own example `T = {"x": child_tree}`,
`S = {"x": leaf_cell}`. -/

/-- Claim C2: FALSE of the code as written, for every amount of fuel —
with target `T = {"x": child_tree}` (node 0, child node 2) and source
`S = {"x": leaf_cell}` (node 1), `T.load(S)` does not complete: the model
returns `none`, mirroring the `unwrap` panic in the child arm of `load`.
The spec's promised behaviour (silent skip, no error) is the claim;
the code contradicts it. -/
theorem c2_load_tag_mismatch_panics :
    ∀ f, loadFuel f
      [⟨"", none, [("x", StateValue.childStateDict 2)]⟩,
       ⟨"", none, [("x", StateValue.tensor 0)]⟩,
       ⟨"", none, []⟩] (fun _ => 0) 0 1 = none := by
  intro f
  cases f with
  | zero => rfl
  | succ g => rfl

/-! ## Claim C3 (code bug): `path()` reports `"root.."`, not `"root.a.b"`

`name` is written exactly once in the whole crate — in `StateDict::new`,
to `""`.  Neither `from_map` (which knows `current_child_name`) nor
`append_child` (which knows `module_name`) ever stores the entry name
into the child's `name` field, so `path()` concatenates empty names. -/

/-- Claim C3: FALSE of the code as written.  For the tree built by
`from_map({"a.b.c": v})`, navigating `child("a").child("b")` reaches
node 2, whose `path()` is `"root.."` (the names of the intermediate nodes
are both `""`), not the claimed `"root.a.b"`. -/
theorem c3_path_reports_root_dots :
    childDictFn (fromMap [] [("a.b.c", 0)]).2 0 "a" = some (.ok 1) ∧
    childDictFn (fromMap [] [("a.b.c", 0)]).2 1 "b" = some (.ok 2) ∧
    ((fromMap [] [("a.b.c", 0)]).2[1]?).map StateDictData.name = some "" ∧
    ((fromMap [] [("a.b.c", 0)]).2[2]?).map StateDictData.name = some "" ∧
    path (fromMap [] [("a.b.c", 0)]).2 2 = some "root.." ∧
    "root.." ≠ "root.a.b" :=
  ⟨rfl, rfl, rfl, rfl, rfl, by decide⟩

/-! ## Claim C1 (corrected): the round-trip needs prefix-free keys

`{"a": v0, "a.b": v1}` has no empty segments, yet the sorted loop first
inserts the leaf `"a"` and then flushes the child group `"a"` over the
same name, overwriting the leaf: the pair `("a", v0)` is lost. -/

/-- Claim C1, counterexample: the mapping `{"a": 0, "a.b": 1}` has
well-formed dotted keys (no empty segments, distinct keys), yet
`to_map (from_map M)` is `{"a.b": 1}`, which is missing the pair
`("a", 0)` — so the round-trip fails as a set of (key, cell) pairs. -/
theorem c1_roundtrip_counterexample :
    NoEmptySegs [("a", 0), ("a.b", 1)] ∧
    NodupKeys [("a", 0), ("a.b", 1)] ∧
    toMap (fromMap [] [("a", 0), ("a.b", 1)]).2 (fromMap [] [("a", 0), ("a.b", 1)]).1 =
      some [("a.b", 1)] ∧
    ("a", 0) ∈ [("a", 0), ("a.b", 1)] ∧
    ("a", 0) ∉ [("a.b", 1)] := by
  refine ⟨by decide, by decide, rfl, by decide, by decide⟩

/-! ## Claim C9 (corrected): `append_child` can create a cycle

`append_child` never checks that the attached child does not contain the
target: appending a clone of a node to itself makes the node its own
child, so it is its own ancestor, and `path()` diverges. -/

/-- Claim C9, counterexample: starting from `new()` and performing the
single call `append_child("x", root_clone)` on the root itself produces a
store in which the root is its own ancestor via child entries, and
`path()` no longer terminates (the model returns `none`). -/
theorem c9_append_child_creates_cycle :
    Relation.TransGen (edge (appendChild (newNode []).2 (newNode []).1 "x" (newNode []).1))
      (newNode []).1 (newNode []).1 ∧
    path (appendChild (newNode []).2 (newNode []).1 "x" (newNode []).1) (newNode []).1 = none := by
  constructor
  · exact Relation.TransGen.single
      ⟨⟨"", some 0, [("x", StateValue.childStateDict 0)]⟩, rfl, "x", by decide⟩
  · rfl

/-! ## Claim C5 (corrected): stale forward entries after re-parenting

`append_child` overwrites the child's back-reference but does not remove
the child from its previous parent's `entries` map: after attaching the
same child under two parents, the first parent still contains it while
the back-reference points at the second. -/

/-- Claim C5, counterexample: three fresh nodes 0, 1, 2; after
`node0.append_child("a", node2)` and then `node1.append_child("b", node2)`,
node 0's entries still contain node 2, but node 2's back-reference
resolves to node 1, not node 0 — so it is not the case that every
attached child's back-reference points at the node containing it. -/
theorem c5_backref_counterexample :
    ¬ BackrefConsistent
        (appendChild (appendChild [⟨"", none, []⟩, ⟨"", none, []⟩, ⟨"", none, []⟩] 0 "a" 2)
          1 "b" 2) := by
  intro h
  obtain ⟨dc, hdc, hp⟩ :=
    h 0 ⟨"", none, [("a", StateValue.childStateDict 2)]⟩ rfl
      ("a", StateValue.childStateDict 2) (by decide) 2 rfl
  have hc : (appendChild (appendChild
      [⟨"", none, []⟩, ⟨"", none, []⟩, ⟨"", none, []⟩] 0 "a" 2) 1 "b" 2)[2]? =
      some ⟨"", some 1, []⟩ := rfl
  rw [hc] at hdc
  cases hdc
  simp at hp

/-! ## Claim C10 (corrected): `load` can mutate the source's leaf values

Shared value cells are explicitly co-ownable (spec §5): nothing prevents
a cell from being a leaf of both trees.  When `self`'s matched leaf cell
is also a leaf cell of the source, the copy is visible through the
source. -/

/-- Claim C10, counterexample: target `T = {"w": cell 0}` and source
`S = {"w": cell 1, "x": cell 0}` share cell 0.  `T.load(S)` copies cell 1
(value 9) into cell 0 (value 0); afterwards the source's own leaf `"x"`
reads 9 — the source tree's leaf values are not all unchanged. -/
theorem c10_load_mutates_source :
    (load [⟨"", none, [("w", StateValue.tensor 0)]⟩,
           ⟨"", none, [("w", StateValue.tensor 1), ("x", StateValue.tensor 0)]⟩]
        (fun c => if c = 1 then 9 else 0) 0 1).map (fun c => c 0) = some 9 ∧
    toVec [⟨"", none, [("w", StateValue.tensor 0)]⟩,
           ⟨"", none, [("w", StateValue.tensor 1), ("x", StateValue.tensor 0)]⟩] 1 =
      some [1, 0] ∧
    (fun c => if c = 1 then (9 : ℚ) else 0) 0 = 0 ∧ (9 : ℚ) ≠ 0 :=
  ⟨rfl, rfl, rfl, by norm_num⟩

/-! ## Claim C7 (confirmed): `append_child` is idempotent -/

theorem parent_after_appendChild (st : NodeStore) (s : Nat) (n : String) (c : Nat) :
    ∀ d, (appendChild st s n c)[c]? = some d → d.parent = some s := by
  intro d hd
  unfold appendChild setParams at hd
  by_cases hcs : s = c
  · subst hcs
    rw [getElem?_modifyNode_self] at hd
    unfold setParent at hd
    rw [getElem?_modifyNode_self] at hd
    cases h : st[s]? with
    | none => rw [h] at hd; exact Option.noConfusion hd
    | some d0 => rw [h] at hd; cases hd; rfl
  · rw [getElem?_modifyNode_ne _ _ hcs] at hd
    unfold setParent at hd
    rw [getElem?_modifyNode_self] at hd
    cases h : st[c]? with
    | none => rw [h] at hd; exact Option.noConfusion hd
    | some d0 => rw [h] at hd; cases hd; rfl

/-- Claim C7: calling `append_child("x", child)` twice with the same name
and child leaves the store identical to calling it once — the entry is
replaced in place and the back-reference merely rewritten to the same
parent.  (Store equality subsumes "same single entry" and "same
back-reference".) -/
theorem c7_append_child_idempotent (st : NodeStore) (s : Nat) (n : String) (c : Nat) :
    appendChild (appendChild st s n c) s n c = appendChild st s n c := by
  have h1 : setParent (appendChild st s n c) c (some s) = appendChild st s n c :=
    modifyNode_eq_self (fun d hd => by
      have := parent_after_appendChild st s n c d hd
      cases d
      simp_all)
  show setParams (setParent (appendChild st s n c) c (some s)) s
      (insertAL n (.childStateDict c) (getParams (setParent (appendChild st s n c) c (some s)) s))
      = appendChild st s n c
  rw [h1]
  apply modifyNode_eq_self
  intro d hd
  have hparams : d.parameters = insertAL n (.childStateDict c) (getParams (setParent st c (some s)) s) := by
    have hd' := hd
    unfold appendChild setParams at hd'
    rw [getElem?_modifyNode_self] at hd'
    cases h : (setParent st c (some s))[s]? with
    | none => rw [h] at hd'; exact Option.noConfusion hd'
    | some d0 => rw [h] at hd'; cases hd'; rfl
  rw [getParams_eq hd, hparams, insertAL_idem, ← hparams]

/-! ## Claim C6 (confirmed): lookup success and NotFound reporting

`tensorFn`/`childDictFn` are pure functions of the store (they return no
store), which is the model-level rendering of "a failed lookup mutates
nothing". -/

theorem pathFuel_succ_eq {st : NodeStore} {n : Nat} {d : StateDictData} {f : Nat}
    (h1 : st[n]? = some d) :
    pathFuel (f + 1) st n =
      match d.parent with
      | none => some "root"
      | some p =>
        match pathFuel f st p with
        | none => none
        | some pp => some (pp ++ "." ++ d.name) := by
  conv_lhs => rw [pathFuel]
  rw [h1]

theorem tensorFn_eq {st : NodeStore} {n : Nat} {d : StateDictData} (key : String)
    (h1 : st[n]? = some d) :
    tensorFn st n key =
      match lookupAL key d.parameters with
      | some (.tensor c) => some (.ok c)
      | _ =>
        match pathFuel (st.length + 1) st n with
        | none => none
        | some p => some (.error ("No such parameter: " ++ key ++ " in " ++ p)) := by
  unfold tensorFn
  rw [h1]

theorem childDictFn_eq {st : NodeStore} {n : Nat} {d : StateDictData} (key : String)
    (h1 : st[n]? = some d) :
    childDictFn st n key =
      match lookupAL key d.parameters with
      | some (.childStateDict c) => some (.ok c)
      | _ =>
        match pathFuel (st.length + 1) st n with
        | none => none
        | some p => some (.error ("No such module: " ++ key ++ " in " ++ p)) := by
  unfold childDictFn
  rw [h1]

/-- Claim C6: for every node and key, `tensor` succeeds with the stored
cell exactly when the entry exists and is a leaf, and `child_state_dict`
exactly when it exists and is a child; otherwise each fails with a
NotFound error whose message contains the requested name and the node's
computed path, and a node whose back-reference does not resolve (the
root) reports the sentinel `"root"` as its path. -/
theorem c6_notfound_reporting (st : NodeStore) (n : Nat) (key : String) (d : StateDictData)
    (p : String) (h1 : st[n]? = some d) (h2 : pathFuel (st.length + 1) st n = some p) :
    (∀ c, tensorFn st n key = some (.ok c) ↔
      lookupAL key d.parameters = some (.tensor c)) ∧
    ((∀ c, lookupAL key d.parameters ≠ some (.tensor c)) →
      tensorFn st n key = some (.error ("No such parameter: " ++ key ++ " in " ++ p)) ∧
      (∃ x y, "No such parameter: " ++ key ++ " in " ++ p = x ++ key ++ y) ∧
      (∃ u w, "No such parameter: " ++ key ++ " in " ++ p = u ++ p ++ w)) ∧
    (∀ c, childDictFn st n key = some (.ok c) ↔
      lookupAL key d.parameters = some (.childStateDict c)) ∧
    ((∀ c, lookupAL key d.parameters ≠ some (.childStateDict c)) →
      childDictFn st n key = some (.error ("No such module: " ++ key ++ " in " ++ p)) ∧
      (∃ x y, "No such module: " ++ key ++ " in " ++ p = x ++ key ++ y) ∧
      (∃ u w, "No such module: " ++ key ++ " in " ++ p = u ++ p ++ w)) ∧
    (d.parent = none → p = "root") := by
  refine ⟨?_, ?_, ?_, ?_, ?_⟩
  · intro c
    rw [tensorFn_eq key h1]
    cases hl : lookupAL key d.parameters with
    | none => rw [h2]; simp
    | some v =>
      cases v with
      | tensor c0 => simp
      | childStateDict c0 => rw [h2]; simp
  · intro hno
    rw [tensorFn_eq key h1]
    refine ⟨?_, ⟨"No such parameter: ", " in " ++ p, by simp [String.append_assoc]⟩,
      ⟨"No such parameter: " ++ key ++ " in ", "", by simp⟩⟩
    cases hl : lookupAL key d.parameters with
    | none => rw [h2]
    | some v =>
      cases v with
      | tensor c0 => exact absurd hl (hno c0)
      | childStateDict c0 => rw [h2]
  · intro c
    rw [childDictFn_eq key h1]
    cases hl : lookupAL key d.parameters with
    | none => rw [h2]; simp
    | some v =>
      cases v with
      | tensor c0 => rw [h2]; simp
      | childStateDict c0 => simp
  · intro hno
    rw [childDictFn_eq key h1]
    refine ⟨?_, ⟨"No such module: ", " in " ++ p, by simp [String.append_assoc]⟩,
      ⟨"No such module: " ++ key ++ " in ", "", by simp⟩⟩
    cases hl : lookupAL key d.parameters with
    | none => rw [h2]
    | some v =>
      cases v with
      | tensor c0 => rw [h2]
      | childStateDict c0 => exact absurd hl (hno c0)
  · intro hpar
    have h2' := (pathFuel_succ_eq h1).symm.trans h2
    rw [hpar] at h2'
    have h3 : some "root" = some p := h2'
    cases h3
    rfl

/-- Witness for C6: on the store `[{"a": cell 5}]` (a root with a single
leaf), looking up the missing name `"missing"` as a tensor yields exactly
the NotFound message containing the name and the root's path. -/
theorem c6_notfound_reporting_witness :
    tensorFn [⟨"", none, [("a", StateValue.tensor 5)]⟩] 0 "missing" =
      some (.error ("No such parameter: " ++ "missing" ++ " in " ++ "root")) :=
  ((c6_notfound_reporting [⟨"", none, [("a", StateValue.tensor 5)]⟩] 0 "missing"
    ⟨"", none, [("a", StateValue.tensor 5)]⟩ "root" rfl rfl).2.1
    (fun c h => by simp [lookupAL] at h)).1

/-! ## `load` as a sequence of cell copies (claims C4 and C10) -/

theorem loadGo_none {recur} {sp spf : List (String × StateValue)} {key : String}
    {v : StateValue} {rest} {cs : CellStore} (h : lookupAL key sp = none) :
    loadGo recur sp spf ((key, v) :: rest) cs = loadGo recur sp spf rest cs := by
  conv_lhs => rw [loadGo]
  rw [h]

theorem loadGo_tensor_tensor {recur} {sp spf : List (String × StateValue)} {key : String}
    {t s : Nat} {rest} {cs : CellStore} (h : lookupAL key sp = some (.tensor t)) :
    loadGo recur sp spf ((key, .tensor s) :: rest) cs =
      loadGo recur sp spf rest (Function.update cs t (cs s)) := by
  conv_lhs => rw [loadGo]
  rw [h]

theorem loadGo_tensor_child {recur} {sp spf : List (String × StateValue)} {key : String}
    {t c : Nat} {rest} {cs : CellStore} (h : lookupAL key sp = some (.tensor t)) :
    loadGo recur sp spf ((key, .childStateDict c) :: rest) cs =
      loadGo recur sp spf rest cs := by
  conv_lhs => rw [loadGo]
  rw [h]

theorem loadGo_child_child {recur} {sp spf : List (String × StateValue)} {key : String}
    {cid sc : Nat} {v : StateValue} {rest} {cs : CellStore}
    (h : lookupAL key sp = some (.childStateDict cid))
    (hs : lookupAL key spf = some (.childStateDict sc)) :
    loadGo recur sp spf ((key, v) :: rest) cs =
      match recur cs cid sc with
      | none => none
      | some cs' => loadGo recur sp spf rest cs' := by
  conv_lhs => rw [loadGo]
  rw [h, hs]

theorem loadGo_child_tensor {recur} {sp spf : List (String × StateValue)} {key : String}
    {cid s : Nat} {v : StateValue} {rest} {cs : CellStore}
    (h : lookupAL key sp = some (.childStateDict cid))
    (hs : lookupAL key spf = some (.tensor s)) :
    loadGo recur sp spf ((key, v) :: rest) cs = none := by
  conv_lhs => rw [loadGo]
  rw [h, hs]

theorem loadGo_child_none {recur} {sp spf : List (String × StateValue)} {key : String}
    {cid : Nat} {v : StateValue} {rest} {cs : CellStore}
    (h : lookupAL key sp = some (.childStateDict cid))
    (hs : lookupAL key spf = none) :
    loadGo recur sp spf ((key, v) :: rest) cs = none := by
  conv_lhs => rw [loadGo]
  rw [h, hs]

theorem loadWGo_none {recur} {sp spf : List (String × StateValue)} {key : String}
    {v : StateValue} {rest} (h : lookupAL key sp = none) :
    loadWGo recur sp spf ((key, v) :: rest) = loadWGo recur sp spf rest := by
  conv_lhs => rw [loadWGo]
  rw [h]

theorem loadWGo_tensor_tensor {recur} {sp spf : List (String × StateValue)} {key : String}
    {t s : Nat} {rest} (h : lookupAL key sp = some (.tensor t)) :
    loadWGo recur sp spf ((key, .tensor s) :: rest) =
      (loadWGo recur sp spf rest).map (fun ws => (t, s) :: ws) := by
  conv_lhs => rw [loadWGo]
  rw [h]

theorem loadWGo_tensor_child {recur} {sp spf : List (String × StateValue)} {key : String}
    {t c : Nat} {rest} (h : lookupAL key sp = some (.tensor t)) :
    loadWGo recur sp spf ((key, .childStateDict c) :: rest) = loadWGo recur sp spf rest := by
  conv_lhs => rw [loadWGo]
  rw [h]

theorem loadWGo_child_child {recur} {sp spf : List (String × StateValue)} {key : String}
    {cid sc : Nat} {v : StateValue} {rest}
    (h : lookupAL key sp = some (.childStateDict cid))
    (hs : lookupAL key spf = some (.childStateDict sc)) :
    loadWGo recur sp spf ((key, v) :: rest) =
      match recur cid sc with
      | none => none
      | some w1 => (loadWGo recur sp spf rest).map (fun ws => w1 ++ ws) := by
  conv_lhs => rw [loadWGo]
  rw [h, hs]

theorem loadWGo_child_tensor {recur} {sp spf : List (String × StateValue)} {key : String}
    {cid s : Nat} {v : StateValue} {rest}
    (h : lookupAL key sp = some (.childStateDict cid))
    (hs : lookupAL key spf = some (.tensor s)) :
    loadWGo recur sp spf ((key, v) :: rest) = none := by
  conv_lhs => rw [loadWGo]
  rw [h, hs]

theorem loadWGo_child_none {recur} {sp spf : List (String × StateValue)} {key : String}
    {cid : Nat} {v : StateValue} {rest}
    (h : lookupAL key sp = some (.childStateDict cid))
    (hs : lookupAL key spf = none) :
    loadWGo recur sp spf ((key, v) :: rest) = none := by
  conv_lhs => rw [loadWGo]
  rw [h, hs]

theorem applyCopies_cons (cs : CellStore) (t s : Nat) (ws : List (Nat × Nat)) :
    applyCopies cs ((t, s) :: ws) = applyCopies (Function.update cs t (cs s)) ws := rfl

theorem applyCopies_append (cs : CellStore) (w1 w2 : List (Nat × Nat)) :
    applyCopies cs (w1 ++ w2) = applyCopies (applyCopies cs w1) w2 := by
  unfold applyCopies
  exact List.foldl_append _ _ _ _

theorem loadGo_eq_applyCopies (f : Nat) (st : NodeStore)
    (IH : ∀ cs a b, loadFuel f st cs a b = (loadWFuel f st a b).map (applyCopies cs))
    (sp spf : List (String × StateValue)) :
    ∀ l cs, loadGo (loadFuel f st) sp spf l cs =
      (loadWGo (loadWFuel f st) sp spf l).map (applyCopies cs) := by
  intro l
  induction l with
  | nil => intro cs; rfl
  | cons kv rest ih =>
    intro cs
    obtain ⟨key, value⟩ := kv
    cases hl : lookupAL key sp with
    | none => rw [loadGo_none hl, loadWGo_none hl, ih cs]
    | some v =>
      cases v with
      | tensor tcell =>
        cases value with
        | tensor scell =>
          rw [loadGo_tensor_tensor hl, loadWGo_tensor_tensor hl, ih _, Option.map_map]
          cases loadWGo (loadWFuel f st) sp spf rest with
          | none => rfl
          | some ws => rfl
        | childStateDict c => rw [loadGo_tensor_child hl, loadWGo_tensor_child hl, ih cs]
      | childStateDict childId =>
        cases hs : lookupAL key spf with
        | none => rw [loadGo_child_none hl hs, loadWGo_child_none hl hs]; rfl
        | some w =>
          cases w with
          | tensor s => rw [loadGo_child_tensor hl hs, loadWGo_child_tensor hl hs]; rfl
          | childStateDict srcChild =>
            rw [loadGo_child_child hl hs, loadWGo_child_child hl hs, IH cs childId srcChild]
            cases hw : loadWFuel f st childId srcChild with
            | none => rfl
            | some w1 =>
              show loadGo _ _ _ rest (applyCopies cs w1) = _
              rw [ih (applyCopies cs w1)]
              cases hrest : loadWGo (loadWFuel f st) sp spf rest with
              | none => rfl
              | some ws =>
                show some (applyCopies (applyCopies cs w1) ws) = some (applyCopies cs (w1 ++ ws))
                rw [applyCopies_append]

/-- `load` performs exactly the copies recorded by `loadWFuel`, in order. -/
theorem loadFuel_eq_applyCopies :
    ∀ (f : Nat) (st : NodeStore) (cs : CellStore) (a b : Nat),
      loadFuel f st cs a b = (loadWFuel f st a b).map (applyCopies cs) := by
  intro f
  induction f with
  | zero => intro st cs a b; rfl
  | succ g ih =>
    intro st cs a b
    show loadFuel (g + 1) st cs a b = (loadWFuel (g + 1) st a b).map (applyCopies cs)
    unfold loadFuel loadWFuel
    cases st[b]? with
    | none => rfl
    | some src =>
      cases st[a]? with
      | none => rfl
      | some slf => exact loadGo_eq_applyCopies g st (fun cs a b => ih st cs a b) _ _ _ cs

/-- Cells not targeted by any copy keep their contents. -/
theorem applyCopies_not_target (ws : List (Nat × Nat)) :
    ∀ (cs : CellStore) (c : Nat), c ∉ ws.map Prod.fst → applyCopies cs ws c = cs c := by
  induction ws with
  | nil => intro cs c _; rfl
  | cons p rest ih =>
    intro cs c hc
    obtain ⟨t, s⟩ := p
    simp only [List.map_cons, List.mem_cons] at hc
    push_neg at hc
    show applyCopies (Function.update cs t (cs s)) rest c = cs c
    rw [ih _ c hc.2, Function.update_noteq hc.1]

/-- When the written cells are pairwise distinct and no written cell is
also read, every copied pair ends with the source cell's prior value. -/
theorem applyCopies_target (ws : List (Nat × Nat)) :
    ∀ (cs : CellStore), (ws.map Prod.fst).Nodup →
      (∀ q ∈ ws, q.2 ∉ ws.map Prod.fst) →
      ∀ q ∈ ws, applyCopies cs ws q.1 = cs q.2 := by
  induction ws with
  | nil => intro cs _ _ q hq; exact absurd hq (List.not_mem_nil q)
  | cons p rest ih =>
    intro cs hnd hdisj q hq
    obtain ⟨t, s⟩ := p
    simp only [List.map_cons, List.nodup_cons] at hnd
    show applyCopies (Function.update cs t (cs s)) rest q.1 = cs q.2
    rcases List.mem_cons.mp hq with hq1 | hq2
    · subst hq1
      rw [applyCopies_not_target rest _ t hnd.1, Function.update_same]
    · have hq2' := ih (Function.update cs t (cs s)) hnd.2
        (fun r hr => fun hmem => hdisj r (List.mem_cons_of_mem _ hr) (List.mem_cons_of_mem _ hmem))
        q hq2
      rw [hq2']
      have hs : q.2 ≠ t := by
        intro hqe
        exact hdisj q (List.mem_cons_of_mem _ hq2) (by simp [hqe])
      rw [Function.update_noteq hs]

/-- Claim C4: for target `T = {"w": 1.0, "b": 2.0}` (cells 0, 1) and
source `S = {"w": 9.0}` (cell 2), after `T.load(S)` the leaf `"w"` holds
9 and `"b"` still holds 2; and in general `load` writes exactly the
matched leaf-pair cells recorded by `loadWFuel` (entries present only in
`T`, and all untargeted cells, are untouched; matched leaves receive the
corresponding source value whenever the written cells are distinct and
never also read). -/
theorem c4_partial_load (f : Nat) (st : NodeStore) (cs : CellStore) (a b : Nat)
    (ws : List (Nat × Nat)) (hw : loadWFuel f st a b = some ws) :
    ((load [⟨"", none, [("w", StateValue.tensor 0), ("b", StateValue.tensor 1)]⟩,
            ⟨"", none, [("w", StateValue.tensor 2)]⟩]
        (fun c => if c = 0 then 1 else if c = 1 then 2 else 9) 0 1).map
        (fun c => (c 0, c 1)) = some (9, 2)) ∧
    loadFuel f st cs a b = some (applyCopies cs ws) ∧
    (∀ c, c ∉ ws.map Prod.fst → applyCopies cs ws c = cs c) ∧
    ((ws.map Prod.fst).Nodup → (∀ q ∈ ws, q.2 ∉ ws.map Prod.fst) →
      ∀ q ∈ ws, applyCopies cs ws q.1 = cs q.2) := by
  refine ⟨rfl, ?_, fun c hc => applyCopies_not_target ws cs c hc,
    fun h1 h2 => applyCopies_target ws cs h1 h2⟩
  rw [loadFuel_eq_applyCopies, hw]
  rfl

/-- Witness for C4: the claim's own instance — `T = {"w": cell 0,
"b": cell 1}`, `S = {"w": cell 2}` — where `load` records exactly the
single copy `(0, 2)`; cell 1 is untargeted and keeps value 2. -/
theorem c4_partial_load_witness :
    loadFuel 3 [⟨"", none, [("w", StateValue.tensor 0), ("b", StateValue.tensor 1)]⟩,
                ⟨"", none, [("w", StateValue.tensor 2)]⟩]
      (fun c => if c = 0 then 1 else if c = 1 then 2 else 9) 0 1 =
      some (applyCopies (fun c => if c = 0 then 1 else if c = 1 then 2 else 9) [(0, 2)]) ∧
    applyCopies (fun c => if c = 0 then 1 else if c = 1 then 2 else 9) [(0, 2)] 1 = 2 :=
  ⟨(c4_partial_load 3 [⟨"", none, [("w", StateValue.tensor 0), ("b", StateValue.tensor 1)]⟩,
                ⟨"", none, [("w", StateValue.tensor 2)]⟩]
      (fun c => if c = 0 then 1 else if c = 1 then 2 else 9) 0 1 [(0, 2)]
      rfl).2.1,
    (c4_partial_load 3 [⟨"", none, [("w", StateValue.tensor 0), ("b", StateValue.tensor 1)]⟩,
                ⟨"", none, [("w", StateValue.tensor 2)]⟩]
      (fun c => if c = 0 then 1 else if c = 1 then 2 else 9) 0 1 [(0, 2)]
      rfl).2.2.1 1 (by decide)⟩

/-- Claim C10 (amended): `load` reads the node stores without returning
one (the model-level rendering of "no structural modification of the
source"), and provided no leaf cell of the source is among the cells
`load` writes, every leaf value of the source is unchanged after the
call. -/
theorem c10_load_frames_source (f g : Nat) (st : NodeStore) (cs : CellStore) (a b : Nat)
    (ws : List (Nat × Nat)) (srcCells : List Nat)
    (hw : loadWFuel f st a b = some ws)
    (_hv : toVecFuel g st b = some srcCells)
    (hdisj : ∀ c ∈ srcCells, c ∉ ws.map Prod.fst) :
    loadFuel f st cs a b = some (applyCopies cs ws) ∧
    ∀ c ∈ srcCells, applyCopies cs ws c = cs c := by
  refine ⟨?_, fun c hc => applyCopies_not_target ws cs c (hdisj c hc)⟩
  rw [loadFuel_eq_applyCopies, hw]
  rfl

/-- Witness for C10 (amended): `T = {"w": cell 0}`, `S = {"w": cell 1}`,
no shared cells — the source's one leaf cell 1 is not written, so its
value is unchanged. -/
theorem c10_load_frames_source_witness :
    loadFuel 2 [⟨"", none, [("w", StateValue.tensor 0)]⟩,
                ⟨"", none, [("w", StateValue.tensor 1)]⟩]
      (fun c => if c = 1 then 9 else 0) 0 1 =
      some (applyCopies (fun c => if c = 1 then 9 else 0) [(0, 1)]) ∧
    ∀ c ∈ [1], applyCopies (fun c => if c = 1 then (9 : ℚ) else 0) [(0, 1)] c =
      (fun c => if c = 1 then (9 : ℚ) else 0) c := by
  have h := c10_load_frames_source 2 2
    [⟨"", none, [("w", StateValue.tensor 0)]⟩, ⟨"", none, [("w", StateValue.tensor 1)]⟩]
    (fun c => if c = 1 then 9 else 0) 0 1 [(0, 1)] [1] rfl rfl (by decide)
  exact ⟨h.1, fun c hc => h.2 c hc⟩

/-! ## Equation lemmas for `from_map`'s loop -/

theorem fromGo_nil_none {recur} {thisId : Nat} {st : NodeStore} {params} :
    fromGo recur thisId [] st params none = some (thisId, setParams st thisId params) := rfl

theorem fromGo_nil_some {recur} {thisId : Nat} {st : NodeStore} {params} {cn cm} :
    fromGo recur thisId [] st params (some (cn, cm)) =
      match recur st cm with
      | none => none
      | some (cid, st') =>
        some (thisId, setParams (setParent st' cid (some thisId)) thisId
          (insertAL cn (.childStateDict cid) params)) := rfl

theorem fromGo_cons_leaf {recur} {thisId : Nat} {k : String} {v : Nat} {rest st params cur}
    (h : isDotted k = false) :
    fromGo recur thisId ((k, v) :: rest) st params cur =
      fromGo recur thisId rest st (insertAL (firstSeg k) (.tensor v) params) cur := by
  conv_lhs => rw [fromGo.eq_def]
  simp only [h, Bool.false_eq_true, if_false]

theorem fromGo_cons_dotted_none {recur} {thisId : Nat} {k : String} {v : Nat} {rest st params}
    (h : isDotted k = true) :
    fromGo recur thisId ((k, v) :: rest) st params none =
      fromGo recur thisId rest st params (some (firstSeg k, insertAL (restAfter k) v [])) := by
  conv_lhs => rw [fromGo]
  simp only [h, if_true]

theorem fromGo_cons_dotted_same {recur} {thisId : Nat} {k : String} {v : Nat}
    {rest st params cn cm} (h : isDotted k = true) (he : firstSeg k = cn) :
    fromGo recur thisId ((k, v) :: rest) st params (some (cn, cm)) =
      fromGo recur thisId rest st params (some (cn, insertAL (restAfter k) v cm)) := by
  conv_lhs => rw [fromGo]
  simp only [h, if_true, he, if_pos rfl]

theorem fromGo_cons_dotted_diff {recur} {thisId : Nat} {k : String} {v : Nat}
    {rest st params cn cm} (h : isDotted k = true) (hne : firstSeg k ≠ cn) :
    fromGo recur thisId ((k, v) :: rest) st params (some (cn, cm)) =
      match recur st cm with
      | none => none
      | some (cid, st2) =>
        fromGo recur thisId rest (setParent st2 cid (some thisId))
          (insertAL cn (.childStateDict cid) params)
          (some (firstSeg k, insertAL (restAfter k) v [])) := by
  conv_lhs => rw [fromGo]
  simp only [h, if_true]
  rw [if_neg hne]

theorem fromMapFuel_succ (f : Nat) (st : NodeStore) (m : List (String × Nat)) :
    fromMapFuel (f + 1) st m =
      fromGo (fromMapFuel f) st.length (sortKeys m) (st ++ [⟨"", none, []⟩]) [] none := rfl

/-! ## Structural facts about `from_map`

`structFuel` is the workhorse: a successful `fromMapFuel` call returns
the next free id as the root, extends the store without touching
existing nodes, and every node it creates has distinct sibling names,
children at strictly larger fresh ids, and back-references pointing at
the unique containing node; the fresh root's back-reference stays
unresolved until the caller attaches it. -/

theorem mem_insertAL {l : List (String × α)} {k : String} {v : α} {kv : String × α}
    (h : kv ∈ insertAL k v l) : kv = (k, v) ∨ kv ∈ l := by
  induction l with
  | nil => simpa [insertAL] using h
  | cons x xs ih =>
    by_cases hx : x.1 = k
    · simp only [insertAL, if_pos hx] at h
      rcases List.mem_cons.mp h with h1 | h2
      · exact Or.inl h1
      · exact Or.inr (List.mem_cons_of_mem _ h2)
    · simp only [insertAL, if_neg hx] at h
      rcases List.mem_cons.mp h with h1 | h2
      · exact Or.inr (h1 ▸ List.mem_cons_self _ _)
      · rcases ih h2 with h3 | h4
        · exact Or.inl h3
        · exact Or.inr (List.mem_cons_of_mem _ h4)

theorem NodupKeys_insertAL {l : List (String × α)} (k : String) (v : α) (h : NodupKeys l) :
    NodupKeys (insertAL k v l) := by
  induction l with
  | nil => simp [insertAL, NodupKeys]
  | cons x xs ih =>
    rcases List.pairwise_cons.mp h with ⟨hx, hxs⟩
    by_cases hk : x.1 = k
    · simp only [insertAL, if_pos hk]
      exact List.pairwise_cons.mpr ⟨fun b hb => hk ▸ hx b hb, hxs⟩
    · simp only [insertAL, if_neg hk]
      refine List.pairwise_cons.mpr ⟨fun b hb => ?_, ih hxs⟩
      rcases mem_insertAL hb with h1 | h2
      · rw [h1]; exact hk
      · exact hx b h2

theorem NodeOK_mono {st3 st' : NodeStore} {j : Nat} (hlen : st3.length ≤ st'.length)
    (hj : st'[j]? = st3[j]?) (hchild : ∀ c, j < c → c < st3.length → st'[c]? = st3[c]?)
    (hOK : NodeOK st3 j) : NodeOK st' j := by
  intro d hd
  obtain ⟨hnd, hch⟩ := hOK d (hj ▸ hd)
  refine ⟨hnd, fun kv hkv c hc => ?_⟩
  obtain ⟨h1, h2, dc, hdc, hp⟩ := hch kv hkv c hc
  exact ⟨h1, lt_of_lt_of_le h2 hlen, dc, (hchild c h1 h2) ▸ hdc, hp⟩

theorem ChildEntriesOK_mono {thisId : Nat} {st3 st' : NodeStore}
    {params : List (String × StateValue)} (hlen : st3.length ≤ st'.length)
    (hchild : ∀ c, thisId < c → c < st3.length → st'[c]? = st3[c]?)
    (hOK : ChildEntriesOK thisId st3 params) : ChildEntriesOK thisId st' params := by
  intro kv hkv c hc
  obtain ⟨h1, h2, dc, hdc, hp⟩ := hOK kv hkv c hc
  exact ⟨h1, lt_of_lt_of_le h2 hlen, dc, (hchild c h1 h2) ▸ hdc, hp⟩

theorem ChildEntriesOK_insert_tensor {thisId : Nat} {st : NodeStore}
    {params : List (String × StateValue)} {k : String} {v : Nat}
    (hOK : ChildEntriesOK thisId st params) :
    ChildEntriesOK thisId st (insertAL k (.tensor v) params) := by
  intro kv hkv c hc
  rcases mem_insertAL hkv with h1 | h2
  · rw [h1] at hc; exact absurd hc (by simp)
  · exact hOK kv h2 c hc

theorem ChildEntriesOK_insert_child {thisId : Nat} {st : NodeStore}
    {params : List (String × StateValue)} {cn : String} {cid : Nat}
    (hOK : ChildEntriesOK thisId st params) (h1 : thisId < cid) (h2 : cid < st.length)
    (h3 : ∃ dc, st[cid]? = some dc ∧ dc.parent = some thisId) :
    ChildEntriesOK thisId st (insertAL cn (.childStateDict cid) params) := by
  intro kv hkv c hc
  rcases mem_insertAL hkv with hkv1 | hkv2
  · rw [hkv1] at hc
    cases hc
    exact ⟨h1, h2, h3⟩
  · exact hOK kv hkv2 c hc

/-- Facts established by one flush of the pending child inside
`from_map`'s loop: the recursive call allocates the child at the next
free id, leaves the existing store intact, makes all new nodes
structurally sound, and the subsequent re-parenting points the child at
`thisId`. -/
theorem flushFacts (f : Nat)
    (IH : ∀ st m n st', fromMapFuel f st m = some (n, st') →
      n = st.length ∧ st.length < st'.length ∧
      (∀ i, i < st.length → st'[i]? = st[i]?) ∧
      (∀ j, st.length ≤ j → NodeOK st' j) ∧
      (∀ d, st'[st.length]? = some d → d.parent = none))
    {thisId : Nat} {st : NodeStore} {cm : List (String × Nat)} {cid : Nat} {st2 : NodeStore}
    (_hThis : thisId < st.length)
    (hrec : fromMapFuel f st cm = some (cid, st2)) :
    cid = st.length ∧
    st.length < (setParent st2 cid (some thisId)).length ∧
    (∀ i, i < st.length → (setParent st2 cid (some thisId))[i]? = st[i]?) ∧
    (∀ j, st.length ≤ j → NodeOK (setParent st2 cid (some thisId)) j) ∧
    (∃ dc, (setParent st2 cid (some thisId))[cid]? = some dc ∧ dc.parent = some thisId) := by
  obtain ⟨h1, h2, h3, h4, _⟩ := IH st cm cid st2 hrec
  subst h1
  have hlen3 : (setParent st2 st.length (some thisId)).length = st2.length :=
    length_modifyNode _ _ _
  have hvalid : st.length < st2.length := h2
  refine ⟨rfl, by omega, ?_, ?_, ?_⟩
  · intro i hi
    unfold setParent
    rw [getElem?_modifyNode_ne _ _ (by omega), h3 i hi]
  · intro j hj
    by_cases hje : j = st.length
    · subst hje
      intro d hd
      unfold setParent at hd
      rw [getElem?_modifyNode_self] at hd
      cases h2' : st2[st.length]? with
      | none => rw [h2'] at hd; exact Option.noConfusion hd
      | some d2 =>
        rw [h2'] at hd
        cases hd
        obtain ⟨hnd, hch⟩ := h4 st.length le_rfl d2 h2'
        refine ⟨hnd, fun kv hkv c hc => ?_⟩
        obtain ⟨hc1, hc2, dc, hdc, hp⟩ := hch kv hkv c hc
        refine ⟨hc1, by omega, dc, ?_, hp⟩
        unfold setParent
        rw [getElem?_modifyNode_ne _ _ (by omega)]
        exact hdc
    · have hOK := h4 j hj
      refine NodeOK_mono (by omega) ?_ (fun c hc1 hc2 => ?_) hOK
      · unfold setParent
        rw [getElem?_modifyNode_ne _ _ (fun he => hje he.symm)]
      · unfold setParent
        rw [getElem?_modifyNode_ne _ _ (by omega)]
  · have : st2[st.length]? = some st2[st.length] := List.getElem?_eq_getElem hvalid
    refine ⟨{ st2[st.length] with parent := some thisId }, ?_, rfl⟩
    unfold setParent
    rw [getElem?_modifyNode_self, this]
    rfl

theorem goStruct (f : Nat)
    (IH : ∀ st m n st', fromMapFuel f st m = some (n, st') →
      n = st.length ∧ st.length < st'.length ∧
      (∀ i, i < st.length → st'[i]? = st[i]?) ∧
      (∀ j, st.length ≤ j → NodeOK st' j) ∧
      (∀ d, st'[st.length]? = some d → d.parent = none))
    (thisId : Nat) :
    ∀ (l : List (String × Nat)) (st : NodeStore) params cur n st',
      thisId < st.length → NodupKeys params → ChildEntriesOK thisId st params →
      fromGo (fromMapFuel f) thisId l st params cur = some (n, st') →
      n = thisId ∧ st.length ≤ st'.length ∧
      (∀ i, i < st.length → i ≠ thisId → st'[i]? = st[i]?) ∧
      (∀ j, st.length ≤ j → NodeOK st' j) ∧
      (∀ d', st'[thisId]? = some d' →
        (∀ d0, st[thisId]? = some d0 → d'.name = d0.name ∧ d'.parent = d0.parent) ∧
        NodupKeys d'.parameters ∧ ChildEntriesOK thisId st' d'.parameters) := by
  intro l
  induction l with
  | nil =>
    intro st params cur n st' hThis hnd hip hcall
    cases cur with
    | none =>
      rw [fromGo_nil_none] at hcall
      cases hcall
      have hlen : (setParams st thisId params).length = st.length := length_modifyNode _ _ _
      refine ⟨rfl, by omega, ?_, ?_, ?_⟩
      · intro i _ hne
        unfold setParams
        exact getElem?_modifyNode_ne _ _ (fun he => hne he.symm)
      · intro j hj
        intro d hd
        unfold setParams at hd
        rw [getElem?_modifyNode_ne _ _ (by omega)] at hd
        rw [List.getElem?_eq_none (by omega)] at hd
        exact Option.noConfusion hd
      · intro d' hd'
        unfold setParams at hd'
        rw [getElem?_modifyNode_self] at hd'
        cases h0 : st[thisId]? with
        | none => rw [h0] at hd'; exact Option.noConfusion hd'
        | some d0 =>
          rw [h0] at hd'
          cases hd'
          refine ⟨fun d1 hd1 => ?_, hnd, ?_⟩
          · cases hd1; exact ⟨rfl, rfl⟩
          · refine ChildEntriesOK_mono (by omega) (fun c hc1 hc2 => ?_) hip
            unfold setParams
            exact getElem?_modifyNode_ne _ _ (by omega)
    | some pair =>
      obtain ⟨cn, cm⟩ := pair
      rw [fromGo_nil_some] at hcall
      cases hrec : fromMapFuel f st cm with
      | none => rw [hrec] at hcall; exact Option.noConfusion hcall
      | some pr =>
        obtain ⟨cid, st2⟩ := pr
        rw [hrec] at hcall
        cases hcall
        obtain ⟨hcid, hlen3, hold3, hnew3, hcd3⟩ := flushFacts f IH hThis hrec
        set st3 := setParent st2 cid (some thisId) with hst3
        have hlen' : (setParams st3 thisId (insertAL cn (.childStateDict cid) params)).length
            = st3.length := length_modifyNode _ _ _
        have hip3 : ChildEntriesOK thisId st3 (insertAL cn (.childStateDict cid) params) := by
          refine ChildEntriesOK_insert_child ?_ (by omega) (by omega) hcd3
          exact ChildEntriesOK_mono (by omega) (fun c hc1 hc2 => hold3 c hc2) hip
        refine ⟨rfl, by omega, ?_, ?_, ?_⟩
        · intro i hi hne
          unfold setParams
          rw [getElem?_modifyNode_ne _ _ (fun he => hne he.symm)]
          exact hold3 i hi
        · intro j hj
          refine NodeOK_mono (by omega) ?_ (fun c hc1 hc2 => ?_) (hnew3 j hj)
          · unfold setParams
            exact getElem?_modifyNode_ne _ _ (by omega)
          · unfold setParams
            exact getElem?_modifyNode_ne _ _ (by omega)
        · intro d' hd'
          unfold setParams at hd'
          rw [getElem?_modifyNode_self] at hd'
          cases h0 : st3[thisId]? with
          | none => rw [h0] at hd'; exact Option.noConfusion hd'
          | some d0 =>
            rw [h0] at hd'
            cases hd'
            refine ⟨fun d1 hd1 => ?_, NodupKeys_insertAL _ _ hnd, ?_⟩
            · have : st3[thisId]? = st[thisId]? := hold3 thisId hThis
              rw [this, hd1] at h0
              cases h0
              exact ⟨rfl, rfl⟩
            · refine ChildEntriesOK_mono (by omega) (fun c hc1 hc2 => ?_) hip3
              unfold setParams
              exact getElem?_modifyNode_ne _ _ (by omega)
  | cons kv rest ihl =>
    intro st params cur n st' hThis hnd hip hcall
    obtain ⟨k, v⟩ := kv
    cases hdot : isDotted k with
    | false =>
      rw [fromGo_cons_leaf hdot] at hcall
      exact ihl st (insertAL (firstSeg k) (.tensor v) params) cur n st' hThis
        (NodupKeys_insertAL _ _ hnd) (ChildEntriesOK_insert_tensor hip) hcall
    | true =>
      cases cur with
      | none =>
        rw [fromGo_cons_dotted_none hdot] at hcall
        exact ihl st params _ n st' hThis hnd hip hcall
      | some pair =>
        obtain ⟨cn, cm⟩ := pair
        by_cases hfs : firstSeg k = cn
        · rw [fromGo_cons_dotted_same hdot hfs] at hcall
          exact ihl st params _ n st' hThis hnd hip hcall
        · rw [fromGo_cons_dotted_diff hdot hfs] at hcall
          cases hrec : fromMapFuel f st cm with
          | none => rw [hrec] at hcall; exact Option.noConfusion hcall
          | some pr =>
            obtain ⟨cid, st2⟩ := pr
            rw [hrec] at hcall
            obtain ⟨hcid, hlen3, hold3, hnew3, hcd3⟩ := flushFacts f IH hThis hrec
            set st3 := setParent st2 cid (some thisId) with hst3
            have hip3 : ChildEntriesOK thisId st3 (insertAL cn (.childStateDict cid) params) := by
              refine ChildEntriesOK_insert_child ?_ (by omega) (by omega) hcd3
              exact ChildEntriesOK_mono (by omega) (fun c hc1 hc2 => hold3 c hc2) hip
            obtain ⟨g1, g2, g3, g4, g5⟩ := ihl st3 _ _ n st' (by omega)
              (NodupKeys_insertAL _ _ hnd) hip3 hcall
            refine ⟨g1, by omega, ?_, ?_, ?_⟩
            · intro i hi hne
              rw [g3 i (by omega) hne]
              exact hold3 i hi
            · intro j hj
              by_cases hj3 : st3.length ≤ j
              · exact g4 j hj3
              · refine NodeOK_mono g2 ?_ (fun c hc1 hc2 => ?_) (hnew3 j hj)
                · exact g3 j (by omega) (by omega)
                · exact g3 c (by omega) (by omega)
            · intro d' hd'
              obtain ⟨ga, gb, gc⟩ := g5 d' hd'
              refine ⟨fun d0 hd0 => ?_, gb, gc⟩
              exact ga d0 ((hold3 thisId hThis) ▸ hd0)

theorem structFuel : ∀ (f : Nat) (st : NodeStore) (m : List (String × Nat)) (n : Nat)
    (st' : NodeStore), fromMapFuel f st m = some (n, st') →
    n = st.length ∧ st.length < st'.length ∧
    (∀ i, i < st.length → st'[i]? = st[i]?) ∧
    (∀ j, st.length ≤ j → NodeOK st' j) ∧
    (∀ d, st'[st.length]? = some d → d.parent = none) := by
  intro f
  induction f with
  | zero => intro st m n st' h; exact Option.noConfusion h
  | succ g ihf =>
    intro st m n st' h
    rw [fromMapFuel_succ] at h
    have hlen1 : st.length < (st ++ [(⟨"", none, []⟩ : StateDictData)]).length := by simp
    obtain ⟨g1, g2, g3, g4, g5⟩ := goStruct g ihf st.length (sortKeys m)
      (st ++ [⟨"", none, []⟩]) [] none n st' hlen1 List.Pairwise.nil
      (fun kv hkv => absurd hkv (List.not_mem_nil kv)) h
    have hroot : (st ++ [(⟨"", none, []⟩ : StateDictData)])[st.length]? =
        some ⟨"", none, []⟩ := List.getElem?_concat_length _ _
    refine ⟨g1, ?_, ?_, ?_, ?_⟩
    · have hg := g2
      simp only [List.length_append, List.length_singleton] at hg
      omega
    · intro i hi
      rw [g3 i (by omega) (by omega), List.getElem?_append]
      rw [if_pos hi]
    · intro j hj
      by_cases hje : j = st.length
      · subst hje
        intro d hd
        obtain ⟨_, gb, gc⟩ := g5 d hd
        exact ⟨gb, fun kv hkv c hc => gc kv hkv c hc⟩
      · have : (st ++ [(⟨"", none, []⟩ : StateDictData)]).length ≤ j := by
          simp only [List.length_append, List.length_singleton]
          omega
        exact g4 j this
    · intro d hd
      obtain ⟨ga, _, _⟩ := g5 d hd
      exact (ga ⟨"", none, []⟩ hroot).2

/-! ## Facts about key splitting and joining -/

theorem splitDot_ne_nil (l : List Char) : splitDot l ≠ [] := by
  cases l with
  | nil => simp [splitDot]
  | cons c rest =>
    unfold splitDot
    cases h : splitDot rest with
    | nil => simp
    | cons s ss =>
      by_cases hc : c = '.' <;> simp [hc]

theorem joinDot_cons (s : List Char) (ss : List (List Char)) (h : ss ≠ []) :
    joinDot (s :: ss) = s ++ '.' :: joinDot ss := by
  cases ss with
  | nil => exact absurd rfl h
  | cons s' ss' => rfl

theorem splitDot_cons_eq (c : Char) (rest : List Char) {s : List Char} {ss : List (List Char)}
    (h : splitDot rest = s :: ss) :
    splitDot (c :: rest) = if c = '.' then [] :: s :: ss else (c :: s) :: ss := by
  conv_lhs => rw [splitDot]
  rw [h]

theorem joinDot_splitDot (l : List Char) : joinDot (splitDot l) = l := by
  induction l with
  | nil => rfl
  | cons c rest ih =>
    cases h : splitDot rest with
    | nil => exact absurd h (splitDot_ne_nil rest)
    | cons s ss =>
      rw [h] at ih
      rw [splitDot_cons_eq c rest h]
      by_cases hc : c = '.'
      · subst hc
        rw [if_pos rfl, joinDot_cons [] (s :: ss) (by simp)]
        show '.' :: joinDot (s :: ss) = '.' :: rest
        rw [ih]
      · rw [if_neg hc]
        cases ss with
        | nil =>
          show c :: s = c :: rest
          have hsr : s = rest := ih
          rw [hsr]
        | cons s2 ss2 =>
          rw [joinDot_cons (c :: s) (s2 :: ss2) (by simp)]
          rw [joinDot_cons s (s2 :: ss2) (by simp)] at ih
          show c :: (s ++ '.' :: joinDot (s2 :: ss2)) = c :: rest
          rw [show s ++ '.' :: joinDot (s2 :: ss2) = rest from ih]

theorem splitDot_dotfree : ∀ (l : List Char), ∀ s ∈ splitDot l, ('.' : Char) ∉ s := by
  intro l
  induction l with
  | nil => intro s hs; simp [splitDot] at hs; simp [hs]
  | cons c rest ih =>
    intro s hs
    unfold splitDot at hs
    cases h : splitDot rest with
    | nil => exact absurd h (splitDot_ne_nil rest)
    | cons s0 ss0 =>
      rw [h] at hs ih
      by_cases hc : c = '.'
      · simp only [hc, if_pos rfl] at hs
        rcases List.mem_cons.mp hs with h1 | h2
        · simp [h1]
        · exact ih s h2
      · simp only [if_neg hc] at hs
        rcases List.mem_cons.mp hs with h1 | h2
        · subst h1
          intro hmem
          rcases List.mem_cons.mp hmem with h3 | h4
          · exact hc h3.symm
          · exact ih s0 (List.mem_cons_self _ _) h4
        · exact ih s (List.mem_cons_of_mem _ h2)

theorem splitDot_of_dotfree : ∀ {s : List Char}, ('.' : Char) ∉ s → splitDot s = [s] := by
  intro s
  induction s with
  | nil => intro _; rfl
  | cons c cs ih =>
    intro hs
    have hc : c ≠ '.' := fun he => hs (he ▸ List.mem_cons_self _ _)
    have ih' : splitDot cs = [cs] := ih (fun hm => hs (List.mem_cons_of_mem _ hm))
    rw [splitDot_cons_eq c cs ih', if_neg hc]

theorem splitDot_append_dotfree (s : List Char) (hs : ('.' : Char) ∉ s) (rest : List Char) :
    splitDot (s ++ '.' :: rest) = s :: splitDot rest := by
  induction s with
  | nil =>
    show splitDot ('.' :: rest) = [] :: splitDot rest
    cases h : splitDot rest with
    | nil => exact absurd h (splitDot_ne_nil rest)
    | cons s0 ss0 => rw [splitDot_cons_eq '.' rest h, if_pos rfl]
  | cons c cs ih =>
    have hc : c ≠ '.' := fun he => hs (he ▸ List.mem_cons_self _ _)
    have ih' := ih (fun hm => hs (List.mem_cons_of_mem _ hm))
    show splitDot (c :: (cs ++ '.' :: rest)) = (c :: cs) :: splitDot rest
    cases h : splitDot rest with
    | nil => exact absurd h (splitDot_ne_nil rest)
    | cons s0 ss0 =>
      rw [h] at ih'
      rw [splitDot_cons_eq c (cs ++ '.' :: rest) ih', if_neg hc]

theorem splitDot_joinDot : ∀ (ss : List (List Char)), ss ≠ [] →
    (∀ s ∈ ss, ('.' : Char) ∉ s) → splitDot (joinDot ss) = ss := by
  intro ss
  induction ss with
  | nil => intro h; exact absurd rfl h
  | cons s ss' ih =>
    intro _ hdf
    cases ss' with
    | nil => exact splitDot_of_dotfree (hdf s (List.mem_cons_self _ _))
    | cons s2 ss2 =>
      rw [joinDot_cons s (s2 :: ss2) (by simp)]
      rw [splitDot_append_dotfree s (hdf s (List.mem_cons_self _ _)) _]
      rw [ih (by simp) (fun t ht => hdf t (List.mem_cons_of_mem _ ht))]

theorem count_dot_splitDot (l : List Char) :
    l.count '.' + 1 = (splitDot l).length := by
  induction l with
  | nil => simp [splitDot]
  | cons c rest ih =>
    cases h : splitDot rest with
    | nil => exact absurd h (splitDot_ne_nil rest)
    | cons s ss =>
      rw [h] at ih
      rw [splitDot_cons_eq c rest h]
      by_cases hc : c = '.'
      · subst hc
        rw [if_pos rfl, List.count_cons_self]
        simp only [List.length_cons] at ih ⊢
        omega
      · rw [if_neg hc, List.count_cons_of_ne (fun he => hc he.symm)]
        simp only [List.length_cons] at ih ⊢
        omega

theorem isDotted_iff (k : String) : isDotted k = true ↔ 2 ≤ (splitDot k.data).length := by
  unfold isDotted
  cases h : splitDot k.data with
  | nil => exact absurd h (splitDot_ne_nil _)
  | cons s ss =>
    cases ss with
    | nil => simp
    | cons s2 ss2 => simp

theorem splitDot_of_dotted {k : String} (h : isDotted k = true) :
    splitDot k.data = (firstSeg k).data :: splitDot (restAfter k).data := by
  have h2 := (isDotted_iff k).mp h
  cases hs : splitDot k.data with
  | nil => exact absurd hs (splitDot_ne_nil _)
  | cons s ss =>
    cases ss with
    | nil => rw [hs] at h2; simp at h2
    | cons s2 ss2 =>
      have hfs : (firstSeg k).data = s := by
        unfold firstSeg
        rw [hs]
        rfl
      have hra : (restAfter k).data = joinDot (s2 :: ss2) := by
        unfold restAfter
        rw [hs]
        rfl
      rw [hfs, hra, splitDot_joinDot (s2 :: ss2) (by simp)
        (fun t ht => splitDot_dotfree k.data t (hs ▸ List.mem_cons_of_mem _ ht))]

theorem key_reconstruct {k : String} (h : isDotted k = true) :
    (firstSeg k).data ++ '.' :: (restAfter k).data = k.data := by
  have hsplit := splitDot_of_dotted h
  have hjoin := joinDot_splitDot k.data
  rw [hsplit] at hjoin
  rw [joinDot_cons _ _ (splitDot_ne_nil _)] at hjoin
  rw [← hjoin, joinDot_splitDot]

theorem firstSeg_dotfree (k : String) : ('.' : Char) ∉ (firstSeg k).data := by
  unfold firstSeg
  cases hs : splitDot k.data with
  | nil => exact absurd hs (splitDot_ne_nil _)
  | cons s ss =>
    show ('.' : Char) ∉ s
    exact splitDot_dotfree k.data s (hs ▸ List.mem_cons_self _ _)

theorem firstSeg_of_undotted {k : String} (h : isDotted k = false) : firstSeg k = k := by
  have h2 : (splitDot k.data).length < 2 := by
    by_contra hc
    rw [(isDotted_iff k).mpr (by omega)] at h
    exact Bool.noConfusion h
  cases hs : splitDot k.data with
  | nil => exact absurd hs (splitDot_ne_nil _)
  | cons s ss =>
    cases ss with
    | cons s2 ss2 =>
      rw [hs] at h2
      simp only [List.length_cons] at h2
      omega
    | nil =>
      have : joinDot [s] = k.data := by rw [← hs]; exact joinDot_splitDot k.data
      have hsk : s = k.data := this
      unfold firstSeg
      rw [hs]
      show (⟨s⟩ : String) = k
      rw [hsk]

theorem dotsIn_restAfter {k : String} (h : isDotted k = true) :
    dotsIn (restAfter k) + 1 = dotsIn k := by
  unfold dotsIn
  have h1 := count_dot_splitDot k.data
  have h2 := count_dot_splitDot (restAfter k).data
  rw [splitDot_of_dotted h, List.length_cons] at h1
  omega

/-! ## Claim C5 (corrected): back-reference consistency, amended -/

theorem lt_length_of_getElem? {l : List α} {i : Nat} {a : α} (h : l[i]? = some a) :
    i < l.length := by
  by_contra hc
  rw [List.getElem?_eq_none (by omega)] at h
  exact Option.noConfusion h

theorem setParent_getElem? (st : NodeStore) (n : Nat) (p : Option Nat) (i : Nat) :
    (setParent st n p)[i]? =
      if i = n then (st[i]?).map (fun d => { d with parent := p }) else st[i]? := by
  by_cases h : i = n
  · subst h
    rw [if_pos rfl]
    exact getElem?_modifyNode_self st i _
  · rw [if_neg h]
    exact getElem?_modifyNode_ne st _ (fun he => h he.symm)

theorem appendChild_ne_case (st : NodeStore) (selfId : Nat) (nm : String) (childId : Nat)
    {i : Nat} (h : i ≠ selfId) :
    (appendChild st selfId nm childId)[i]? = (setParent st childId (some selfId))[i]? := by
  show (setParams (setParent st childId (some selfId)) selfId _)[i]? = _
  exact getElem?_modifyNode_ne _ _ (fun he => h he.symm)

theorem appendChild_self_case (st : NodeStore) (selfId : Nat) (nm : String) (childId : Nat)
    {d1 : StateDictData} (h : (setParent st childId (some selfId))[selfId]? = some d1) :
    (appendChild st selfId nm childId)[selfId]? =
      some { d1 with parameters := insertAL nm (.childStateDict childId) d1.parameters } := by
  show (setParams (setParent st childId (some selfId)) selfId _)[selfId]? = _
  unfold setParams
  rw [getElem?_modifyNode_self, h]
  simp only [Option.map_some']
  rw [getParams_eq h]

theorem appendChild_none_case (st : NodeStore) (selfId : Nat) (nm : String) (childId : Nat)
    (h : (setParent st childId (some selfId))[selfId]? = none) :
    (appendChild st selfId nm childId)[selfId]? = none := by
  show (setParams (setParent st childId (some selfId)) selfId _)[selfId]? = _
  unfold setParams
  rw [getElem?_modifyNode_self, h]
  rfl

/-- What each node looks like after `append_child`: the target gets the
new entry inserted, the child gets the new back-reference, and everything
else is untouched. -/
theorem appendChild_spec (st : NodeStore) (selfId : Nat) (nm : String) (childId : Nat) :
    ∀ i d', (appendChild st selfId nm childId)[i]? = some d' →
      ∃ d, st[i]? = some d ∧
        d'.parameters = (if i = selfId then
          insertAL nm (.childStateDict childId) d.parameters else d.parameters) ∧
        d'.parent = (if i = childId then some selfId else d.parent) := by
  intro i d' hd'
  by_cases his : i = selfId
  · rw [his] at hd' ⊢
    cases h1 : (setParent st childId (some selfId))[selfId]? with
    | none =>
      rw [appendChild_none_case st selfId nm childId h1] at hd'
      exact Option.noConfusion hd'
    | some d1 =>
      rw [appendChild_self_case st selfId nm childId h1] at hd'
      cases hd'
      rw [setParent_getElem?] at h1
      by_cases hic : selfId = childId
      · rw [if_pos hic] at h1
        cases hst : st[selfId]? with
        | none => rw [hst] at h1; simp at h1
        | some d =>
          rw [hst] at h1
          simp only [Option.map_some'] at h1
          cases h1
          exact ⟨d, rfl, by rw [if_pos rfl], by rw [if_pos hic]⟩
      · rw [if_neg hic] at h1
        exact ⟨d1, h1, by rw [if_pos rfl], by rw [if_neg hic]⟩
  · rw [appendChild_ne_case st selfId nm childId his, setParent_getElem?] at hd'
    by_cases hic : i = childId
    · rw [if_pos hic] at hd'
      cases hst : st[i]? with
      | none => rw [hst] at hd'; simp at hd'
      | some d =>
        rw [hst] at hd'
        simp only [Option.map_some'] at hd'
        cases hd'
        exact ⟨d, rfl, by rw [if_neg his], by rw [if_pos hic]⟩
    · rw [if_neg hic] at hd'
      exact ⟨d', hd', by rw [if_neg his], by rw [if_neg hic]⟩

/-- Forward version: a node present before `append_child` is present
after; its back-reference is rewritten exactly when it is the child. -/
theorem appendChild_target (st : NodeStore) (selfId : Nat) (nm : String) (childId : Nat) :
    ∀ c dOld, st[c]? = some dOld →
      ∃ dc, (appendChild st selfId nm childId)[c]? = some dc ∧
        dc.parent = (if c = childId then some selfId else dOld.parent) := by
  intro c dOld hc
  by_cases his : c = selfId
  · rw [his] at hc ⊢
    have h1 : ∃ d1, (setParent st childId (some selfId))[selfId]? = some d1 ∧
        d1.parent = (if selfId = childId then some selfId else dOld.parent) := by
      rw [setParent_getElem?]
      by_cases hic : selfId = childId
      · rw [if_pos hic, hc]
        exact ⟨_, rfl, by rw [if_pos hic]⟩
      · rw [if_neg hic, hc]
        exact ⟨_, rfl, by rw [if_neg hic]⟩
    obtain ⟨d1, hd1, hp1⟩ := h1
    rw [appendChild_self_case st selfId nm childId hd1]
    exact ⟨_, rfl, hp1⟩
  · rw [appendChild_ne_case st selfId nm childId his, setParent_getElem?]
    by_cases hic : c = childId
    · rw [if_pos hic, hc]
      exact ⟨_, rfl, by rw [if_pos hic]⟩
    · rw [if_neg hic, hc]
      exact ⟨_, rfl, by rw [if_neg hic]⟩

/-- Claim C5 (amended): (1) `from_map` preserves back-reference
consistency — in particular a tree built by `from_map` alone is fully
consistent; (2) `append_child` preserves it provided no node other than
the target still contains the child (re-parenting leaves the old
parent's forward entry stale, which is what the counterexample exhibits);
(3) `append_child` unconditionally overwrites the child's previous
back-reference with the new parent; and (4) unconditionally overwrites
the entry under the given name with this child. -/
theorem c5_backref_amended :
    (∀ (f : Nat) (st : NodeStore) (m : List (String × Nat)) (n : Nat) (st' : NodeStore),
      BackrefConsistent st → fromMapFuel f st m = some (n, st') → BackrefConsistent st') ∧
    (∀ (st : NodeStore) (selfId : Nat) (nm : String) (childId : Nat),
      BackrefConsistent st → childId < st.length →
      (∀ p d, st[p]? = some d → p ≠ selfId →
        ∀ kv ∈ d.parameters, kv.2 ≠ StateValue.childStateDict childId) →
      BackrefConsistent (appendChild st selfId nm childId)) ∧
    (∀ (st : NodeStore) (selfId : Nat) (nm : String) (childId : Nat) (d0 : StateDictData),
      st[childId]? = some d0 →
      ∃ dc, (appendChild st selfId nm childId)[childId]? = some dc ∧
        dc.parent = some selfId) ∧
    (∀ (st : NodeStore) (selfId : Nat) (nm : String) (childId : Nat) (d0 : StateDictData),
      st[selfId]? = some d0 →
      lookupAL nm (getParams (appendChild st selfId nm childId) selfId) =
        some (StateValue.childStateDict childId)) := by
  refine ⟨?_, ?_, ?_, ?_⟩
  · intro f st m n st' hBRC hcall
    obtain ⟨hn, hlen, hold, hnew, _⟩ := structFuel f st m n st' hcall
    intro p dp hdp kv hkv c hc
    by_cases hp : p < st.length
    · rw [hold p hp] at hdp
      obtain ⟨dc, hdc, hpar⟩ := hBRC p dp hdp kv hkv c hc
      have hcl : c < st.length := lt_length_of_getElem? hdc
      exact ⟨dc, (hold c hcl) ▸ hdc, hpar⟩
    · obtain ⟨_, hch⟩ := hnew p (by omega) dp hdp
      obtain ⟨_, _, dc, hdc, hpar⟩ := hch kv hkv c hc
      exact ⟨dc, hdc, hpar⟩
  · intro st selfId nm childId hBRC hcv hexcl
    intro p dp hdp kv hkv c hc
    obtain ⟨d0, hd0, hparams, _⟩ := appendChild_spec st selfId nm childId p dp hdp
    obtain ⟨dch0, hdch0⟩ : ∃ d1, st[childId]? = some d1 :=
      ⟨st[childId], List.getElem?_eq_getElem hcv⟩
    by_cases hps : p = selfId
    · rw [if_pos hps] at hparams
      rw [hparams] at hkv
      rcases mem_insertAL hkv with hkv1 | hkv2
      · have hcch : c = childId := by
          have h2 := congrArg Prod.snd hkv1
          rw [hc] at h2
          cases h2
          rfl
        rw [hcch, hps]
        obtain ⟨dc, hdc, hpar⟩ := appendChild_target st selfId nm childId childId dch0 hdch0
        rw [if_pos rfl] at hpar
        exact ⟨dc, hdc, hpar⟩
      · obtain ⟨dcOld, hdcOld, hparOld⟩ := hBRC p d0 hd0 kv hkv2 c hc
        obtain ⟨dc, hdc, hpar⟩ := appendChild_target st selfId nm childId c dcOld hdcOld
        by_cases hcc : c = childId
        · rw [if_pos hcc] at hpar
          exact ⟨dc, hdc, hps ▸ hpar⟩
        · rw [if_neg hcc] at hpar
          exact ⟨dc, hdc, hpar.trans hparOld⟩
    · rw [if_neg hps] at hparams
      rw [hparams] at hkv
      have hnc : c ≠ childId := by
        intro he
        exact hexcl p d0 hd0 hps kv hkv (he ▸ hc)
      obtain ⟨dcOld, hdcOld, hparOld⟩ := hBRC p d0 hd0 kv hkv c hc
      obtain ⟨dc, hdc, hpar⟩ := appendChild_target st selfId nm childId c dcOld hdcOld
      rw [if_neg hnc] at hpar
      exact ⟨dc, hdc, hpar.trans hparOld⟩
  · intro st selfId nm childId d0 h0
    obtain ⟨dc, hdc, hpar⟩ := appendChild_target st selfId nm childId childId d0 h0
    rw [if_pos rfl] at hpar
    exact ⟨dc, hdc, hpar⟩
  · intro st selfId nm childId d0 h0
    have hself : ∃ d1, (setParent st childId (some selfId))[selfId]? = some d1 := by
      rw [setParent_getElem?]
      by_cases h : selfId = childId
      · rw [if_pos h, h0]
        exact ⟨_, rfl⟩
      · rw [if_neg h, h0]
        exact ⟨_, rfl⟩
    obtain ⟨d1, hd1⟩ := hself
    rw [getParams_eq (appendChild_self_case st selfId nm childId hd1)]
    exact lookupAL_insertAL_self _ _ _

/-- Witness for C5 (amended): the tree `from_map({"a.b": cell 0})` is
fully back-reference consistent. -/
theorem c5_backref_amended_witness :
    BackrefConsistent [⟨"", none, [("a", StateValue.childStateDict 1)]⟩,
                       ⟨"", some 0, [("b", StateValue.tensor 0)]⟩] :=
  c5_backref_amended.1 2 [] [("a.b", 0)] 0
    [⟨"", none, [("a", StateValue.childStateDict 1)]⟩,
     ⟨"", some 0, [("b", StateValue.tensor 0)]⟩]
    (fun p d h => absurd h (by simp)) rfl

/-! ## Claim C9 (corrected): acyclicity, amended -/

theorem edge_src_lt {st : NodeStore} {a b : Nat} (h : edge st a b) : a < st.length := by
  obtain ⟨d, hd, _⟩ := h
  exact lt_length_of_getElem? hd

theorem transGen_src {r : Nat → Nat → Prop} {a b : Nat} (h : Relation.TransGen r a b) :
    ∃ x, r a x := by
  induction h with
  | single h1 => exact ⟨_, h1⟩
  | tail _ _ ih => exact ih

/-- Adding the single edge `u → v` to an acyclic relation keeps it
acyclic when `u` is not reachable from `v`. -/
theorem acyclic_add_edge {r : Nat → Nat → Prop} {u v : Nat}
    (hacy : ∀ n, ¬ Relation.TransGen r n n) (hreach : ¬ Relation.ReflTransGen r v u)
    {r' : Nat → Nat → Prop} (hsub : ∀ a b, r' a b → r a b ∨ (a = u ∧ b = v)) :
    ∀ n, ¬ Relation.TransGen r' n n := by
  have key : ∀ a b, Relation.TransGen r' a b →
      Relation.TransGen r a b ∨
        (Relation.ReflTransGen r a u ∧ Relation.ReflTransGen r v b) := by
    intro a b h
    induction h with
    | single he =>
      rcases hsub _ _ he with h1 | ⟨h2, h3⟩
      · exact Or.inl (Relation.TransGen.single h1)
      · exact Or.inr ⟨h2 ▸ Relation.ReflTransGen.refl, h3 ▸ Relation.ReflTransGen.refl⟩
    | tail _ hbc ih =>
      rcases hsub _ _ hbc with h1 | ⟨h2, h3⟩
      · rcases ih with ih1 | ⟨ih2, ih3⟩
        · exact Or.inl (ih1.tail h1)
        · exact Or.inr ⟨ih2, ih3.tail h1⟩
      · rcases ih with ih1 | ⟨ih2, ih3⟩
        · exact Or.inr ⟨h2 ▸ ih1.to_reflTransGen, h3 ▸ Relation.ReflTransGen.refl⟩
        · exact absurd (h2 ▸ ih3) hreach
  intro n hn
  rcases key n n hn with h1 | ⟨h2, h3⟩
  · exact hacy n h1
  · exact hreach (h3.trans h2)

theorem edge_appendChild_sub (st : NodeStore) (selfId : Nat) (nm : String) (childId : Nat) :
    ∀ a b, edge (appendChild st selfId nm childId) a b →
      edge st a b ∨ (a = selfId ∧ b = childId) := by
  rintro a b ⟨d, hd, k, hk⟩
  obtain ⟨d0, hd0, hparams, _⟩ := appendChild_spec st selfId nm childId a d hd
  by_cases has : a = selfId
  · rw [if_pos has] at hparams
    rw [hparams] at hk
    rcases mem_insertAL hk with h1 | h2
    · have hb : b = childId := by
        have h2 := congrArg Prod.snd h1
        cases h2
        rfl
      exact Or.inr ⟨has, hb⟩
    · exact Or.inl ⟨d0, hd0, k, h2⟩
  · rw [if_neg has] at hparams
    exact Or.inl ⟨d0, hd0, k, hparams ▸ hk⟩

theorem edge_newNode_sub (st : NodeStore) :
    ∀ a b, edge (newNode st).2 a b → edge st a b := by
  rintro a b ⟨d, hd, k, hk⟩
  rw [show (newNode st).2 = st ++ [⟨"", none, []⟩] from rfl, List.getElem?_append] at hd
  by_cases ha : a < st.length
  · rw [if_pos ha] at hd
    exact ⟨d, hd, k, hk⟩
  · rw [if_neg ha] at hd
    cases h2 : a - st.length with
    | zero =>
      rw [h2] at hd
      have : d = ⟨"", none, []⟩ := by
        have h3 := hd
        simp at h3
        exact h3.symm
      rw [this] at hk
      exact absurd hk (List.not_mem_nil _)
    | succ n =>
      rw [h2] at hd
      simp at hd

theorem edge_fromMap_sub {f : Nat} {st : NodeStore} {m : List (String × Nat)} {n : Nat}
    {st' : NodeStore} (hcall : fromMapFuel f st m = some (n, st')) :
    ∀ a b, edge st' a b → edge st a b ∨ (st.length ≤ a ∧ a < b) := by
  rintro a b ⟨d, hd, k, hk⟩
  obtain ⟨_, _, hold, hnew, _⟩ := structFuel f st m n st' hcall
  by_cases ha : a < st.length
  · rw [hold a ha] at hd
    exact Or.inl ⟨d, hd, k, hk⟩
  · obtain ⟨_, hch⟩ := hnew a (by omega) d hd
    obtain ⟨h1, _, _⟩ := hch (k, .childStateDict b) hk b rfl
    exact Or.inr ⟨by omega, h1⟩

theorem fromMap_acyclic {f : Nat} {st : NodeStore} {m : List (String × Nat)} {n0 : Nat}
    {st' : NodeStore} (hacy : Acyclic st) (hcall : fromMapFuel f st m = some (n0, st')) :
    Acyclic st' := by
  have key : ∀ a b, Relation.TransGen (edge st') a b →
      Relation.TransGen (edge st) a b ∧ a < st.length ∨
        (st.length ≤ b ∧ (st.length ≤ a → a < b)) := by
    intro a b h
    induction h with
    | single he =>
      rcases edge_fromMap_sub hcall _ _ he with h1 | ⟨h2, h3⟩
      · exact Or.inl ⟨Relation.TransGen.single h1, edge_src_lt h1⟩
      · exact Or.inr ⟨by omega, fun _ => h3⟩
    | tail _ hbc ih =>
      rcases edge_fromMap_sub hcall _ _ hbc with h1 | ⟨h2, h3⟩
      · rcases ih with ⟨ih1, ih2⟩ | ⟨ih2, _⟩
        · exact Or.inl ⟨ih1.tail h1, ih2⟩
        · exact absurd (edge_src_lt h1) (by omega)
      · rcases ih with ⟨ih1, ih4⟩ | ⟨ih2, ih3⟩
        · refine Or.inr ⟨by omega, fun haL => absurd ih4 (by omega)⟩
        · exact Or.inr ⟨by omega, fun haL => lt_trans (ih3 haL) h3⟩
  intro n hn
  rcases key n n hn with ⟨h1, _⟩ | ⟨h2, h3⟩
  · exact hacy n h1
  · exact absurd (h3 h2) (lt_irrefl n)

theorem no_edge_of_empty_params {st : NodeStore} (h : ∀ d ∈ st, d.parameters = []) :
    ∀ a b, ¬ edge st a b := by
  rintro a b ⟨d, hd, k, hk⟩
  have hmem : d ∈ st := by
    have := List.getElem?_eq_some.mp hd
    obtain ⟨hlt, hget⟩ := this
    exact hget ▸ List.getElem_mem _
  rw [h d hmem] at hk
  exact absurd hk (List.not_mem_nil _)

theorem acyclic_of_no_edge {st : NodeStore} (h : ∀ a b, ¬ edge st a b) : Acyclic st := by
  intro n hn
  cases hn with
  | single h1 => exact h _ _ h1
  | tail _ h2 => exact h _ _ h2

/-- Claim C9 (amended): acyclicity of the child-entry relation holds for
the empty store, is preserved by `new` and by `from_map` unconditionally,
and is preserved by `append_child` provided the target node is not
reachable from the appended child (in particular is not the child
itself).  The unamended claim fails: `append_child` performs no such
check, and a self-append creates a cycle (see the counterexample). -/
theorem c9_acyclicity_amended :
    Acyclic ([] : NodeStore) ∧
    (∀ st : NodeStore, Acyclic st → Acyclic (newNode st).2) ∧
    (∀ (f : Nat) (st : NodeStore) (m : List (String × Nat)) (n : Nat) (st' : NodeStore),
      Acyclic st → fromMapFuel f st m = some (n, st') → Acyclic st') ∧
    (∀ (st : NodeStore) (selfId : Nat) (nm : String) (childId : Nat), Acyclic st →
      ¬ Relation.ReflTransGen (edge st) childId selfId →
      Acyclic (appendChild st selfId nm childId)) := by
  refine ⟨?_, ?_, ?_, ?_⟩
  · exact acyclic_of_no_edge (no_edge_of_empty_params (by simp))
  · intro st hacy n hn
    have : Relation.TransGen (edge st) n n := by
      refine Relation.TransGen.mono ?_ hn
      exact fun a b h => edge_newNode_sub st a b h
    exact hacy n this
  · intro f st m n st' hacy hcall
    exact fromMap_acyclic hacy hcall
  · intro st selfId nm childId hacy hreach
    exact acyclic_add_edge hacy hreach (edge_appendChild_sub st selfId nm childId)

/-- Witness for C9 (amended): attaching a fresh root under another root
(no reachability between them) preserves acyclicity. -/
theorem c9_acyclicity_amended_witness :
    Acyclic (appendChild [⟨"", none, []⟩, ⟨"", none, []⟩] 0 "x" 1) := by
  refine c9_acyclicity_amended.2.2.2 [⟨"", none, []⟩, ⟨"", none, []⟩] 0 "x" 1 ?_ ?_
  · exact acyclic_of_no_edge (no_edge_of_empty_params (by
      intro d hd
      rcases List.mem_cons.mp hd with h1 | h2
      · rw [h1]
      · rcases List.mem_cons.mp h2 with h3 | h4
        · rw [h3]
        · exact absurd h4 (List.not_mem_nil d)))
  · intro hr
    rcases Relation.ReflTransGen.cases_head hr with h1 | ⟨c, hc, _⟩
    · exact Nat.noConfusion h1
    · exact no_edge_of_empty_params (by
        intro d hd
        rcases List.mem_cons.mp hd with h1 | h2
        · rw [h1]
        · rcases List.mem_cons.mp h2 with h3 | h4
          · rw [h3]
          · exact absurd h4 (List.not_mem_nil d)) 1 c hc

/-! ## Claim C8 (confirmed): `from_map` is deterministic in the key set -/

theorem nodupKeys_perm {l1 l2 : List (String × Nat)} (h : l1.Perm l2) (hnd : NodupKeys l1) :
    NodupKeys l2 :=
  (List.Perm.pairwise_iff (fun hab he => hab he.symm) h).mp hnd

theorem sorted_keyLT_of_nodup {l : List (String × Nat)} (hs : List.Sorted keyLE l)
    (hnd : NodupKeys l) : List.Sorted keyLT l :=
  List.Pairwise.imp₂ (fun _ _ hle hne => lt_of_le_of_ne hle (fun he => hne (String.ext he)))
    hs hnd

theorem sortKeys_eq_of_perm {l1 l2 : List (String × Nat)} (hnd : NodupKeys l1)
    (h : l1.Perm l2) : sortKeys l1 = sortKeys l2 := by
  have hperm : (sortKeys l1).Perm (sortKeys l2) :=
    (List.perm_insertionSort keyLE l1).trans (h.trans (List.perm_insertionSort keyLE l2).symm)
  have hnd1 : NodupKeys (sortKeys l1) := nodupKeys_perm (List.perm_insertionSort keyLE l1).symm hnd
  have hnd2 : NodupKeys (sortKeys l2) := nodupKeys_perm hperm hnd1
  exact List.eq_of_perm_of_sorted hperm
    (sorted_keyLT_of_nodup (List.sorted_insertionSort keyLE l1) hnd1)
    (sorted_keyLT_of_nodup (List.sorted_insertionSort keyLE l2) hnd2)

theorem maxDots_perm {l1 l2 : List (String × Nat)} (h : l1.Perm l2) :
    maxDots l1 = maxDots l2 := by
  induction h with
  | nil => rfl
  | cons x _ ih =>
    show max (dotsIn x.1) (maxDots _) = max (dotsIn x.1) (maxDots _)
    rw [ih]
  | swap x y l =>
    show max (dotsIn y.1) (max (dotsIn x.1) (maxDots l)) =
      max (dotsIn x.1) (max (dotsIn y.1) (maxDots l))
    rw [max_left_comm]
  | trans _ _ ih1 ih2 => exact ih1.trans ih2

/-- Claim C8: `from_map` is deterministic in its input as a key-value
set — two calls with permuted entry lists (distinct keys, as a `HashMap`
guarantees) build identical stores, because the keys are first brought
into sorted order; and no node ever has two sibling entries of the same
name (every `parameters` map built by `from_map` has pairwise-distinct
keys). -/
theorem c8_from_map_deterministic :
    (∀ (st : NodeStore) (l1 l2 : List (String × Nat)), NodupKeys l1 → l1.Perm l2 →
      fromMap st l1 = fromMap st l2) ∧
    (∀ (f : Nat) (st : NodeStore) (m : List (String × Nat)) (n : Nat) (st' : NodeStore),
      fromMapFuel f st m = some (n, st') →
      ∀ j, st.length ≤ j → ∀ d, st'[j]? = some d → NodupKeys d.parameters) := by
  constructor
  · intro st l1 l2 hnd h
    have hm := maxDots_perm h
    have hs := sortKeys_eq_of_perm hnd h
    unfold fromMap
    rw [← hm, fromMapFuel_succ, fromMapFuel_succ, hs]
  · intro f st m n st' hcall j hj d hd
    obtain ⟨_, _, _, hnew, _⟩ := structFuel f st m n st' hcall
    exact (hnew j hj d hd).1

/-- Witness for C8: the two insertion orders of `{"a": 0, "b": 1}`
produce identical stores. -/
theorem c8_from_map_deterministic_witness :
    fromMap [] [("b", 1), ("a", 0)] = fromMap [] [("a", 0), ("b", 1)] :=
  c8_from_map_deterministic.1 [] [("b", 1), ("a", 0)] [("a", 0), ("b", 1)]
    (by decide) (by decide)

/-! ## Claim C1 (corrected): the round trip, amended

The development runs in stages: list/string kit lemmas, the
lexicographic "sandwich" lemmas that make sorted first-segment blocks
contiguous, the factoring of `from_map`'s loop through `grouping` and
`realize`, well-formedness of the emitted groups, the characterisation
of `to_map` through `FlatRel`, and the round-trip induction. -/

theorem insertAL_append_of_fresh {l : List (String × α)} {k : String}
    (h : k ∉ l.map Prod.fst) (v : α) : insertAL k v l = l ++ [(k, v)] := by
  induction l with
  | nil => rfl
  | cons x xs ih =>
    have hx : x.1 ≠ k := fun he => h (by rw [List.map_cons, he]; exact List.mem_cons_self _ _)
    have h2 : k ∉ xs.map Prod.fst :=
      fun hm => h (by rw [List.map_cons]; exact List.mem_cons_of_mem _ hm)
    simp only [insertAL, if_neg hx, List.cons_append]
    rw [ih h2]

theorem foldl_insertAL_fresh : ∀ (l2 : List (String × α)) (acc : List (String × α)),
    NodupKeys (acc ++ l2) →
    l2.foldl (fun a p => insertAL p.1 p.2 a) acc = acc ++ l2 := by
  intro l2
  induction l2 with
  | nil => intro acc _; simp
  | cons p tl ih =>
    intro acc hnd
    have hfresh : p.1 ∉ acc.map Prod.fst := by
      intro hm
      obtain ⟨q, hq, hq1⟩ := List.mem_map.mp hm
      exact (List.pairwise_append.mp hnd).2.2 q hq p (List.mem_cons_self _ _) hq1
    show tl.foldl _ (insertAL p.1 p.2 acc) = acc ++ p :: tl
    rw [insertAL_append_of_fresh hfresh]
    have hnd' : NodupKeys ((acc ++ [p]) ++ tl) := by
      rw [List.append_assoc, List.singleton_append]; exact hnd
    rw [ih (acc ++ [p]) hnd', List.append_assoc, List.singleton_append]

theorem nodupKeys_sublist {l1 l2 : List (String × α)} (h : l1.Sublist l2)
    (hnd : NodupKeys l2) : NodupKeys l1 :=
  List.Pairwise.sublist h hnd

theorem nodupKeys_of_map_prefix {cn : String} {cm : List (String × Nat)}
    (h : NodupKeys (cm.map (fun rv => (cn ++ "." ++ rv.1, rv.2)))) : NodupKeys cm := by
  unfold NodupKeys at h ⊢
  rw [List.pairwise_map] at h
  exact h.imp (fun hne he => hne (by rw [he]))

theorem prefixFree_subset {l1 l2 : List (String × Nat)} (h : ∀ x ∈ l1, x ∈ l2)
    (hpf : PrefixFree l2) : PrefixFree l1 :=
  fun kv hkv kv' hkv' => hpf kv (h kv hkv) kv' (h kv' hkv')

theorem prefixFree_perm {l1 l2 : List (String × Nat)} (h : l1.Perm l2)
    (hpf : PrefixFree l1) : PrefixFree l2 :=
  prefixFree_subset (fun _ hx => h.mem_iff.mpr hx) hpf

theorem data_dotjoin (s r : String) : (s ++ "." ++ r).data = s.data ++ '.' :: r.data := by
  rw [String.data_append, String.data_append, List.append_assoc]
  rfl

theorem key_reconstruct_str {k : String} (h : isDotted k = true) :
    firstSeg k ++ "." ++ restAfter k = k := by
  apply String.ext
  rw [data_dotjoin]
  exact key_reconstruct h

theorem firstSeg_dotjoin {s : String} (hs : ('.' : Char) ∉ s.data) (r : String) :
    firstSeg (s ++ "." ++ r) = s ∧ restAfter (s ++ "." ++ r) = r ∧
      isDotted (s ++ "." ++ r) = true := by
  have hsplit : splitDot (s ++ "." ++ r).data = s.data :: splitDot r.data := by
    rw [data_dotjoin]
    exact splitDot_append_dotfree s.data hs r.data
  refine ⟨?_, ?_, ?_⟩
  · unfold firstSeg
    rw [hsplit]
    rfl
  · unfold restAfter
    rw [hsplit]
    show (⟨joinDot (splitDot r.data)⟩ : String) = r
    rw [joinDot_splitDot]
  · rw [isDotted_iff, hsplit]
    cases hq : splitDot r.data with
    | nil => exact absurd hq (splitDot_ne_nil _)
    | cons a b => simp

theorem isDotted_false_dotfree {k : String} (h : isDotted k = false) :
    ('.' : Char) ∉ k.data := by
  intro hmem
  have hc := count_dot_splitDot k.data
  have h1 : k.data.count '.' ≠ 0 := fun h0 => (List.count_eq_zero.mp h0) hmem
  rw [(isDotted_iff k).mpr (by omega)] at h
  exact Bool.noConfusion h

theorem dotsIn_le_maxDots : ∀ {m : List (String × Nat)} {kv}, kv ∈ m →
    dotsIn kv.1 ≤ maxDots m := by
  intro m
  induction m with
  | nil => intro kv h; exact absurd h (List.not_mem_nil kv)
  | cons x xs ih =>
    intro kv h
    show dotsIn kv.1 ≤ max (dotsIn x.1) (maxDots xs)
    rcases List.mem_cons.mp h with h1 | h2
    · rw [h1]; exact le_max_left _ _
    · exact le_trans (ih h2) (le_max_right _ _)

theorem maxDots_le_of_forall {m : List (String × Nat)} {B : Nat}
    (h : ∀ kv ∈ m, dotsIn kv.1 ≤ B) : maxDots m ≤ B := by
  induction m with
  | nil => exact Nat.zero_le B
  | cons x xs ih =>
    show max (dotsIn x.1) (maxDots xs) ≤ B
    exact max_le (h x (List.mem_cons_self _ _))
      (ih (fun kv hkv => h kv (List.mem_cons_of_mem _ hkv)))

theorem dotsIn_dotjoin {s : String} (hs : ('.' : Char) ∉ s.data) (r : String) :
    dotsIn (s ++ "." ++ r) = dotsIn r + 1 := by
  unfold dotsIn
  rw [data_dotjoin, List.count_append, List.count_cons_self, List.count_eq_zero.mpr hs]
  omega

/-! ### The lexicographic order on `List Char` -/

theorem list_lt_of_lex {l m : List Char} (h : List.Lex (· < ·) l m) : l < m := h

theorem lex_of_list_lt {l m : List Char} (h : l < m) : List.Lex (· < ·) l m := h

theorem nil_lt_cons (a : Char) (l : List Char) : ([] : List Char) < a :: l :=
  list_lt_of_lex List.Lex.nil

theorem cons_lt_of_head_lt {a b : Char} (h : a < b) (l m : List Char) : a :: l < b :: m :=
  list_lt_of_lex (List.Lex.rel h)

theorem cons_lt_cons_of_lt {a : Char} {l m : List Char} (h : l < m) : a :: l < a :: m :=
  list_lt_of_lex (List.Lex.cons (lex_of_list_lt h))

/-- Sandwich: in the sorted order, a dotted key with first segment `t`
lying between two dotted keys with first segment `s` forces `t = s` —
first-segment blocks are contiguous among the dotted keys. -/
theorem seg_sandwich : ∀ (s : List Char), ('.' : Char) ∉ s →
    ∀ (t : List Char), ('.' : Char) ∉ t → ∀ (r1 r2 r3 : List Char),
    (s ++ '.' :: r1) ≤ (t ++ '.' :: r2) → (t ++ '.' :: r2) ≤ (s ++ '.' :: r3) → t = s := by
  intro s
  induction s with
  | nil =>
    intro _ t ht r1 r2 r3 h12 h23
    cases t with
    | nil => rfl
    | cons c cs =>
      have hc : c ≠ '.' := fun he => ht (he ▸ List.mem_cons_self _ _)
      rcases lt_trichotomy c '.' with h1 | h1 | h1
      · exact absurd (cons_lt_of_head_lt h1 _ _) (not_lt.mpr h12)
      · exact absurd h1 hc
      · exact absurd (cons_lt_of_head_lt h1 _ _) (not_lt.mpr h23)
  | cons a as ih =>
    intro hs t ht r1 r2 r3 h12 h23
    have ha : a ≠ '.' := fun he => hs (he ▸ List.mem_cons_self _ _)
    cases t with
    | nil =>
      rcases lt_trichotomy a '.' with h1 | h1 | h1
      · exact absurd (cons_lt_of_head_lt h1 _ _) (not_lt.mpr h23)
      · exact absurd h1 ha
      · exact absurd (cons_lt_of_head_lt h1 _ _) (not_lt.mpr h12)
    | cons b bs =>
      rcases lt_trichotomy a b with h1 | h1 | h1
      · exact absurd (cons_lt_of_head_lt h1 _ _) (not_lt.mpr h23)
      · subst h1
        have has : ('.' : Char) ∉ as := fun hm => hs (List.mem_cons_of_mem _ hm)
        have hbs : ('.' : Char) ∉ bs := fun hm => ht (List.mem_cons_of_mem _ hm)
        have h12' : (as ++ '.' :: r1) ≤ (bs ++ '.' :: r2) := by
          rw [← not_lt] at h12 ⊢
          exact fun hlt => h12 (cons_lt_cons_of_lt hlt)
        have h23' : (bs ++ '.' :: r2) ≤ (as ++ '.' :: r3) := by
          rw [← not_lt] at h23 ⊢
          exact fun hlt => h23 (cons_lt_cons_of_lt hlt)
        rw [ih has bs hbs r1 r2 r3 h12' h23']
      · exact absurd (cons_lt_of_head_lt h1 _ _) (not_lt.mpr h12)

/-- Sandwich, undotted middle: no dot-free key fits in the sorted order
between two dotted keys sharing their first segment. -/
theorem undot_sandwich : ∀ (s : List Char), ('.' : Char) ∉ s →
    ∀ (t : List Char), ('.' : Char) ∉ t → ∀ (r1 r3 : List Char),
    (s ++ '.' :: r1) ≤ t → t ≤ (s ++ '.' :: r3) → False := by
  intro s
  induction s with
  | nil =>
    intro _ t ht r1 r3 h12 h23
    cases t with
    | nil => exact absurd (nil_lt_cons '.' r1) (not_lt.mpr h12)
    | cons c cs =>
      have hc : c ≠ '.' := fun he => ht (he ▸ List.mem_cons_self _ _)
      rcases lt_trichotomy c '.' with h1 | h1 | h1
      · exact absurd (cons_lt_of_head_lt h1 _ _) (not_lt.mpr h12)
      · exact absurd h1 hc
      · exact absurd (cons_lt_of_head_lt h1 _ _) (not_lt.mpr h23)
  | cons a as ih =>
    intro hs t ht r1 r3 h12 h23
    cases t with
    | nil => exact absurd (nil_lt_cons a (as ++ '.' :: r1)) (not_lt.mpr h12)
    | cons b bs =>
      rcases lt_trichotomy a b with h1 | h1 | h1
      · exact absurd (cons_lt_of_head_lt h1 _ _) (not_lt.mpr h23)
      · subst h1
        have has : ('.' : Char) ∉ as := fun hm => hs (List.mem_cons_of_mem _ hm)
        have hbs : ('.' : Char) ∉ bs := fun hm => ht (List.mem_cons_of_mem _ hm)
        refine ih has bs hbs r1 r3 ?_ ?_
        · rw [← not_lt] at h12 ⊢
          exact fun hlt => h12 (cons_lt_cons_of_lt hlt)
        · rw [← not_lt] at h23 ⊢
          exact fun hlt => h23 (cons_lt_cons_of_lt hlt)
      · exact absurd (cons_lt_of_head_lt h1 _ _) (not_lt.mpr h12)

/-! ### The loop as an emission sequence -/

theorem grouping_nil_none : grouping none [] = [] := rfl

theorem grouping_nil_some {cn cm} : grouping (some (cn, cm)) [] = [.groupE cn cm] := rfl

theorem grouping_cons_leaf {k : String} {v : Nat} {rest cur} (h : isDotted k = false) :
    grouping cur ((k, v) :: rest) = .leafE (firstSeg k) v :: grouping cur rest := by
  conv_lhs => rw [grouping.eq_def]
  simp only [h, Bool.false_eq_true, if_false]

theorem grouping_cons_dotted_none {k : String} {v : Nat} {rest} (h : isDotted k = true) :
    grouping none ((k, v) :: rest) =
      grouping (some (firstSeg k, insertAL (restAfter k) v [])) rest := by
  conv_lhs => rw [grouping.eq_def]
  simp only [h, if_true]

theorem grouping_cons_dotted_same {k : String} {v : Nat} {rest cn cm} (h : isDotted k = true)
    (he : firstSeg k = cn) :
    grouping (some (cn, cm)) ((k, v) :: rest) =
      grouping (some (cn, insertAL (restAfter k) v cm)) rest := by
  conv_lhs => rw [grouping.eq_def]
  simp only [h, if_true, he, if_pos rfl]

theorem grouping_cons_dotted_diff {k : String} {v : Nat} {rest cn cm} (h : isDotted k = true)
    (hne : firstSeg k ≠ cn) :
    grouping (some (cn, cm)) ((k, v) :: rest) =
      .groupE cn cm :: grouping (some (firstSeg k, insertAL (restAfter k) v [])) rest := by
  conv_lhs => rw [grouping.eq_def]
  simp only [h, if_true]
  rw [if_neg hne]

theorem realize_group {recur} {thisId : Nat} {cn cm es st params} :
    realize recur thisId (.groupE cn cm :: es) st params =
      match recur st cm with
      | none => none
      | some (cid, st2) =>
        realize recur thisId es (setParent st2 cid (some thisId))
          (insertAL cn (.childStateDict cid) params) := rfl

/-- `from_map`'s loop is exactly: compute the emission sequence, then
execute it. -/
theorem fromGo_eq_realize (recur) (thisId : Nat) :
    ∀ (l : List (String × Nat)) (st : NodeStore) params cur,
    fromGo recur thisId l st params cur = realize recur thisId (grouping cur l) st params := by
  intro l
  induction l with
  | nil =>
    intro st params cur
    cases cur with
    | none => rw [fromGo_nil_none, grouping_nil_none]; rfl
    | some pair =>
      obtain ⟨cn, cm⟩ := pair
      rw [fromGo_nil_some, grouping_nil_some, realize_group]
      cases hr : recur st cm with
      | none => rfl
      | some pr => obtain ⟨cid, st2⟩ := pr; rfl
  | cons kv rest ihl =>
    intro st params cur
    obtain ⟨k, v⟩ := kv
    cases hdot : isDotted k with
    | false =>
      rw [fromGo_cons_leaf hdot, grouping_cons_leaf hdot, ihl]
      rfl
    | true =>
      cases cur with
      | none =>
        rw [fromGo_cons_dotted_none hdot, grouping_cons_dotted_none hdot, ihl]
      | some pair =>
        obtain ⟨cn, cm⟩ := pair
        by_cases hfs : firstSeg k = cn
        · rw [fromGo_cons_dotted_same hdot hfs, grouping_cons_dotted_same hdot hfs, ihl]
        · rw [fromGo_cons_dotted_diff hdot hfs, grouping_cons_dotted_diff hdot hfs,
            realize_group]
          cases hr : recur st cm with
          | none => rfl
          | some pr => obtain ⟨cid, st2⟩ := pr; exact ihl _ _ _

theorem insertAL_ne_nil (k : String) (v : α) (l : List (String × α)) : insertAL k v l ≠ [] := by
  cases l with
  | nil => simp [insertAL]
  | cons x xs => by_cases hx : x.1 = k <;> simp [insertAL, hx]

theorem pend_new_group {k : String} (hdot : isDotted k = true) (v : Nat) :
    pendOf (some (firstSeg k, insertAL (restAfter k) v [])) = [(k, v)] := by
  show [(firstSeg k ++ "." ++ restAfter k, v)] = [(k, v)]
  rw [key_reconstruct_str hdot]

/-- The emission sequence stands for exactly the pending keys plus the
remaining input (as a multiset). -/
theorem unGroup_grouping_perm : ∀ (l : List (String × Nat)) (cur),
    NodupKeys (pendOf cur ++ l) →
    (unGroup (grouping cur l)).Perm (pendOf cur ++ l) := by
  intro l
  induction l with
  | nil =>
    intro cur _
    cases cur with
    | none => rw [grouping_nil_none]; rfl
    | some pair =>
      obtain ⟨cn, cm⟩ := pair
      rw [grouping_nil_some]
      show (cm.map _ ++ []).Perm (cm.map _ ++ [])
      exact List.Perm.refl _
  | cons kv rest ihl =>
    intro cur hnd
    obtain ⟨k, v⟩ := kv
    cases hdot : isDotted k with
    | false =>
      rw [grouping_cons_leaf hdot]
      show ((firstSeg k, v) :: unGroup (grouping cur rest)).Perm (pendOf cur ++ (k, v) :: rest)
      rw [firstSeg_of_undotted hdot]
      have hsub : (pendOf cur ++ rest).Sublist (pendOf cur ++ (k, v) :: rest) :=
        List.Sublist.append_left (List.sublist_cons_self _ _) _
      have hperm := ihl cur (nodupKeys_sublist hsub hnd)
      exact (hperm.cons (k, v)).trans List.perm_middle.symm
    | true =>
      cases cur with
      | none =>
        rw [grouping_cons_dotted_none hdot]
        have hnd' : NodupKeys (pendOf (some (firstSeg k, insertAL (restAfter k) v [])) ++ rest) := by
          rw [pend_new_group hdot, List.singleton_append]
          exact hnd
        have := ihl _ hnd'
        rw [pend_new_group hdot, List.singleton_append] at this
        exact this
      | some pair =>
        obtain ⟨cn, cm⟩ := pair
        by_cases hfs : firstSeg k = cn
        · rw [grouping_cons_dotted_same hdot hfs]
          have hkey : cn ++ "." ++ restAfter k = k := by
            rw [← hfs]
            exact key_reconstruct_str hdot
          have hfresh : restAfter k ∉ cm.map Prod.fst := by
            intro hm
            obtain ⟨rv, hrv, hrv1⟩ := List.mem_map.mp hm
            refine (List.pairwise_append.mp hnd).2.2 (cn ++ "." ++ rv.1, rv.2)
              (List.mem_map_of_mem _ hrv) (k, v) (List.mem_cons_self _ _) ?_
            show cn ++ "." ++ rv.1 = k
            rw [hrv1]
            exact hkey
          have hpend : pendOf (some (cn, insertAL (restAfter k) v cm)) =
              pendOf (some (cn, cm)) ++ [(k, v)] := by
            show (insertAL (restAfter k) v cm).map _ = cm.map _ ++ [(k, v)]
            rw [insertAL_append_of_fresh hfresh, List.map_append]
            show cm.map _ ++ [(cn ++ "." ++ restAfter k, v)] = cm.map _ ++ [(k, v)]
            rw [hkey]
          have hnd' : NodupKeys (pendOf (some (cn, insertAL (restAfter k) v cm)) ++ rest) := by
            rw [hpend, List.append_assoc, List.singleton_append]
            exact hnd
          have := ihl _ hnd'
          rw [hpend, List.append_assoc, List.singleton_append] at this
          exact this
        · rw [grouping_cons_dotted_diff hdot hfs]
          show (cm.map _ ++ unGroup (grouping _ rest)).Perm (pendOf (some (cn, cm)) ++ (k, v) :: rest)
          have hnd' : NodupKeys (pendOf (some (firstSeg k, insertAL (restAfter k) v [])) ++ rest) := by
            rw [pend_new_group hdot, List.singleton_append]
            exact nodupKeys_sublist (List.sublist_append_right _ _) hnd
          have hperm := ihl _ hnd'
          rw [pend_new_group hdot, List.singleton_append] at hperm
          exact List.Perm.append_left _ hperm

/-- A group's re-prefixed sub-map is a sublist of the flat reading of
the emission sequence containing it. -/
theorem group_sub_unGroup : ∀ (E : List Emission) {cn cm}, Emission.groupE cn cm ∈ E →
    (cm.map (fun rv => (cn ++ "." ++ rv.1, rv.2))).Sublist (unGroup E) := by
  intro E
  induction E with
  | nil => intro cn cm h; exact absurd h (List.not_mem_nil _)
  | cons e es ih =>
    intro cn cm h
    rcases List.mem_cons.mp h with h1 | h2
    · rw [← h1]
      exact List.sublist_append_left _ _
    · cases e with
      | leafE k v => exact List.Sublist.cons _ (ih h2)
      | groupE cn' cm' => exact List.sublist_append_of_sublist_right (ih h2)

/-- Every emission's name is witnessed in the input: a leaf name is an
undotted key of the remaining input, a group name is the stem of some
dotted key among the pending or remaining entries. -/
theorem grouping_name_witness : ∀ (l : List (String × Nat)) (cur),
    (∀ cn cm, cur = some (cn, cm) → cm ≠ []) →
    ∀ e ∈ grouping cur l,
      (∃ v, (emissionName e, v) ∈ l ∧ isDotted (emissionName e) = false) ∨
      (∃ r v, (emissionName e ++ "." ++ r, v) ∈ pendOf cur ++ l) := by
  intro l
  induction l with
  | nil =>
    intro cur hcur e he
    cases cur with
    | none =>
      rw [grouping_nil_none] at he
      exact absurd he (List.not_mem_nil e)
    | some pair =>
      obtain ⟨cn, cm⟩ := pair
      rw [grouping_nil_some] at he
      rcases List.mem_cons.mp he with h1 | h1
      · subst h1
        obtain ⟨rv, hrv⟩ := List.exists_mem_of_ne_nil cm (hcur cn cm rfl)
        right
        refine ⟨rv.1, rv.2, ?_⟩
        rw [List.append_nil]
        show (cn ++ "." ++ rv.1, rv.2) ∈ cm.map _
        exact List.mem_map_of_mem _ hrv
      · exact absurd h1 (List.not_mem_nil e)
  | cons kv rest ihl =>
    intro cur hcur e he
    obtain ⟨k, v⟩ := kv
    cases hdot : isDotted k with
    | false =>
      rw [grouping_cons_leaf hdot] at he
      rcases List.mem_cons.mp he with h1 | h1
      · subst h1
        left
        refine ⟨v, ?_, ?_⟩
        · show (firstSeg k, v) ∈ (k, v) :: rest
          rw [firstSeg_of_undotted hdot]
          exact List.mem_cons_self _ _
        · show isDotted (firstSeg k) = false
          rw [firstSeg_of_undotted hdot]
          exact hdot
      · rcases ihl cur hcur e h1 with ⟨v2, hv2, hu⟩ | ⟨r, v2, hrv⟩
        · exact Or.inl ⟨v2, List.mem_cons_of_mem _ hv2, hu⟩
        · right
          refine ⟨r, v2, ?_⟩
          rcases List.mem_append.mp hrv with h2 | h2
          · exact List.mem_append_left _ h2
          · exact List.mem_append_right _ (List.mem_cons_of_mem _ h2)
    | true =>
      cases cur with
      | none =>
        rw [grouping_cons_dotted_none hdot] at he
        have hcur' : ∀ cn' cm',
            (some (firstSeg k, insertAL (restAfter k) v []) :
              Option (String × List (String × Nat))) = some (cn', cm') → cm' ≠ [] := by
          intro cn' cm' h
          cases h
          exact insertAL_ne_nil _ _ _
        rcases ihl _ hcur' e he with ⟨v2, hv2, hu⟩ | ⟨r, v2, hrv⟩
        · exact Or.inl ⟨v2, List.mem_cons_of_mem _ hv2, hu⟩
        · right
          refine ⟨r, v2, ?_⟩
          rcases List.mem_append.mp hrv with h2 | h2
          · rw [pend_new_group hdot] at h2
            show (emissionName e ++ "." ++ r, v2) ∈ (k, v) :: rest
            rw [List.mem_singleton.mp h2]
            exact List.mem_cons_self _ _
          · show (emissionName e ++ "." ++ r, v2) ∈ (k, v) :: rest
            exact List.mem_cons_of_mem _ h2
      | some pair =>
        obtain ⟨cn, cm⟩ := pair
        by_cases hfs : firstSeg k = cn
        · rw [grouping_cons_dotted_same hdot hfs] at he
          have hkey : cn ++ "." ++ restAfter k = k := by
            rw [← hfs]
            exact key_reconstruct_str hdot
          have hcur' : ∀ cn' cm',
              (some (cn, insertAL (restAfter k) v cm) :
                Option (String × List (String × Nat))) = some (cn', cm') → cm' ≠ [] := by
            intro cn' cm' h
            cases h
            exact insertAL_ne_nil _ _ _
          rcases ihl _ hcur' e he with ⟨v2, hv2, hu⟩ | ⟨r, v2, hrv⟩
          · exact Or.inl ⟨v2, List.mem_cons_of_mem _ hv2, hu⟩
          · right
            refine ⟨r, v2, ?_⟩
            rcases List.mem_append.mp hrv with h2 | h2
            · obtain ⟨rv, hrv2, hfeq⟩ := List.mem_map.mp h2
              rcases mem_insertAL hrv2 with h3 | h3
              · refine List.mem_append_right _ ?_
                rw [← hfeq, h3]
                show (cn ++ "." ++ restAfter k, v) ∈ (k, v) :: rest
                rw [hkey]
                exact List.mem_cons_self _ _
              · refine List.mem_append_left _ ?_
                rw [← hfeq]
                exact List.mem_map_of_mem _ h3
            · exact List.mem_append_right _ (List.mem_cons_of_mem _ h2)
        · rw [grouping_cons_dotted_diff hdot hfs] at he
          rcases List.mem_cons.mp he with h1 | h1
          · subst h1
            obtain ⟨rv, hrv⟩ := List.exists_mem_of_ne_nil cm (hcur cn cm rfl)
            right
            refine ⟨rv.1, rv.2, List.mem_append_left _ ?_⟩
            show (cn ++ "." ++ rv.1, rv.2) ∈ cm.map _
            exact List.mem_map_of_mem _ hrv
          · have hcur' : ∀ cn' cm',
                (some (firstSeg k, insertAL (restAfter k) v []) :
                  Option (String × List (String × Nat))) = some (cn', cm') → cm' ≠ [] := by
              intro cn' cm' h
              cases h
              exact insertAL_ne_nil _ _ _
            rcases ihl _ hcur' e h1 with ⟨v2, hv2, hu⟩ | ⟨r, v2, hrv⟩
            · exact Or.inl ⟨v2, List.mem_cons_of_mem _ hv2, hu⟩
            · right
              refine ⟨r, v2, ?_⟩
              rcases List.mem_append.mp hrv with h2 | h2
              · rw [pend_new_group hdot] at h2
                refine List.mem_append_right _ ?_
                rw [List.mem_singleton.mp h2]
                exact List.mem_cons_self _ _
              · exact List.mem_append_right _ (List.mem_cons_of_mem _ h2)

/-- Group names are dot-free (they are first segments). -/
theorem grouping_group_dotfree : ∀ (l : List (String × Nat)) (cur),
    (∀ cn cm, cur = some (cn, cm) → ('.' : Char) ∉ cn.data) →
    ∀ cn cm, Emission.groupE cn cm ∈ grouping cur l → ('.' : Char) ∉ cn.data := by
  intro l
  induction l with
  | nil =>
    intro cur hcur cn cm h
    cases cur with
    | none =>
      rw [grouping_nil_none] at h
      exact absurd h (List.not_mem_nil _)
    | some pair =>
      obtain ⟨cn0, cm0⟩ := pair
      rw [grouping_nil_some] at h
      rcases List.mem_cons.mp h with h1 | h1
      · injection h1 with h2 h3
        rw [h2]
        exact hcur cn0 cm0 rfl
      · exact absurd h1 (List.not_mem_nil _)
  | cons kv rest ihl =>
    intro cur hcur cn cm h
    obtain ⟨k, v⟩ := kv
    cases hdot : isDotted k with
    | false =>
      rw [grouping_cons_leaf hdot] at h
      rcases List.mem_cons.mp h with h1 | h1
      · exact Emission.noConfusion h1
      · exact ihl cur hcur cn cm h1
    | true =>
      cases cur with
      | none =>
        rw [grouping_cons_dotted_none hdot] at h
        refine ihl _ ?_ cn cm h
        intro cn' cm' hc
        cases hc
        exact firstSeg_dotfree k
      | some pair =>
        obtain ⟨cn0, cm0⟩ := pair
        by_cases hfs : firstSeg k = cn0
        · rw [grouping_cons_dotted_same hdot hfs] at h
          refine ihl _ ?_ cn cm h
          intro cn' cm' hc
          cases hc
          exact hcur cn0 cm0 rfl
        · rw [grouping_cons_dotted_diff hdot hfs] at h
          rcases List.mem_cons.mp h with h1 | h1
          · injection h1 with h2 h3
            rw [h2]
            exact hcur cn0 cm0 rfl
          · refine ihl _ ?_ cn cm h1
            intro cn' cm' hc
            cases hc
            exact firstSeg_dotfree k

theorem dropWhile_head_false (p : α → Bool) : ∀ (l : List α) {b : α} {tl : List α},
    l.dropWhile p = b :: tl → p b = false := by
  intro l
  induction l with
  | nil => intro b tl h; exact absurd h (by simp)
  | cons x xs ih =>
    intro b tl h
    by_cases hp : p x = true
    · rw [List.dropWhile_cons_of_pos hp] at h
      exact ih h
    · rw [List.dropWhile_cons_of_neg hp] at h
      cases h
      exact Bool.eq_false_iff.mpr hp

/-- In a sorted input headed by a dotted key, the keys sharing the
head's first segment form a contiguous block: split the tail into the
block and a remainder that never mentions the segment again (by the
sandwich lemmas). -/
theorem block_of_sorted {k : String} {v : Nat} {rest : List (String × Nat)}
    (hdot : isDotted k = true)
    (hs : List.Sorted keyLE ((k, v) :: rest)) :
    ∃ l₁ l₂, rest = l₁ ++ l₂ ∧
      (∀ e ∈ l₁, isDotted e.1 = true ∧ firstSeg e.1 = firstSeg k) ∧
      (∀ e ∈ l₂, isDotted e.1 = true → firstSeg e.1 ≠ firstSeg k) := by
  obtain ⟨hk, hrest⟩ := List.sorted_cons.mp hs
  refine ⟨rest.takeWhile (fun e => isDotted e.1 && (firstSeg e.1 == firstSeg k)),
    rest.dropWhile (fun e => isDotted e.1 && (firstSeg e.1 == firstSeg k)),
    (List.takeWhile_append_dropWhile _ _).symm, ?_, ?_⟩
  · intro e he
    have hp := List.mem_takeWhile_imp he
    simp only [Bool.and_eq_true, beq_iff_eq] at hp
    exact hp
  · intro e he hdote heq
    cases hdw : rest.dropWhile (fun e => isDotted e.1 && (firstSeg e.1 == firstSeg k)) with
    | nil =>
      rw [hdw] at he
      exact absurd he (List.not_mem_nil e)
    | cons b tl =>
      rw [hdw] at he
      have hpb : (isDotted b.1 && (firstSeg b.1 == firstSeg k)) = false :=
        dropWhile_head_false _ rest hdw
      rcases List.mem_cons.mp he with h1 | h1
      · rw [h1] at hdote heq
        rw [hdote, heq] at hpb
        simp at hpb
      · have hkb : k.data ≤ b.1.data := by
          refine hk b ((List.dropWhile_sublist
            (fun e : String × Nat => isDotted e.1 && (firstSeg e.1 == firstSeg k))).subset ?_)
          rw [hdw]
          exact List.mem_cons_self _ _
        have hbe : b.1.data ≤ e.1.data := by
          have hsplit : rest = rest.takeWhile
              (fun e => isDotted e.1 && (firstSeg e.1 == firstSeg k)) ++ b :: tl := by
            rw [← hdw, List.takeWhile_append_dropWhile]
          have hrest2 := hrest
          rw [hsplit] at hrest2
          exact (List.pairwise_cons.mp (List.pairwise_append.mp hrest2).2.1).1 e h1
        have hkd := key_reconstruct hdot
        have hed := key_reconstruct hdote
        rw [heq] at hed
        have hfsk := firstSeg_dotfree k
        cases hdb : isDotted b.1 with
        | true =>
          have hbd := key_reconstruct hdb
          have hfsb : firstSeg b.1 ≠ firstSeg k := by
            intro hfb
            rw [hdb, hfb] at hpb
            simp at hpb
          have h12 : ((firstSeg k).data ++ '.' :: (restAfter k).data) ≤
              ((firstSeg b.1).data ++ '.' :: (restAfter b.1).data) := by
            rw [hkd, hbd]
            exact hkb
          have h23 : ((firstSeg b.1).data ++ '.' :: (restAfter b.1).data) ≤
              ((firstSeg k).data ++ '.' :: (restAfter e.1).data) := by
            rw [hbd, hed]
            exact hbe
          have hdata := seg_sandwich (firstSeg k).data hfsk (firstSeg b.1).data
            (firstSeg_dotfree b.1) (restAfter k).data (restAfter b.1).data
            (restAfter e.1).data h12 h23
          exact hfsb (String.ext hdata)
        | false =>
          have hbdf := isDotted_false_dotfree hdb
          have h12 : ((firstSeg k).data ++ '.' :: (restAfter k).data) ≤ b.1.data := by
            rw [hkd]
            exact hkb
          have h23 : b.1.data ≤ ((firstSeg k).data ++ '.' :: (restAfter e.1).data) := by
            rw [hed]
            exact hbe
          exact undot_sandwich (firstSeg k).data hfsk b.1.data hbdf
            (restAfter k).data (restAfter e.1).data h12 h23

theorem block_tail_leaf {k : String} {v : Nat} {rest : List (String × Nat)} {cn : String}
    (hdot : isDotted k = false)
    (h : ∃ l₁ l₂, (k, v) :: rest = l₁ ++ l₂ ∧
      (∀ e ∈ l₁, isDotted e.1 = true ∧ firstSeg e.1 = cn) ∧
      (∀ e ∈ l₂, isDotted e.1 = true → firstSeg e.1 ≠ cn)) :
    ∃ l₁ l₂, rest = l₁ ++ l₂ ∧
      (∀ e ∈ l₁, isDotted e.1 = true ∧ firstSeg e.1 = cn) ∧
      (∀ e ∈ l₂, isDotted e.1 = true → firstSeg e.1 ≠ cn) := by
  obtain ⟨l₁, l₂, hsplit, hl1, hl2⟩ := h
  cases l₁ with
  | nil =>
    rw [List.nil_append] at hsplit
    refine ⟨[], rest, (List.nil_append rest).symm,
      fun e he => absurd he (List.not_mem_nil e), fun e he => ?_⟩
    exact hl2 e (by rw [← hsplit]; exact List.mem_cons_of_mem _ he)
  | cons x l₁' =>
    rw [List.cons_append] at hsplit
    injection hsplit with hx hrest2
    have h5 := (hl1 x (List.mem_cons_self _ _)).1
    rw [← hx] at h5
    simp [hdot] at h5

theorem block_tail_same {k : String} {v : Nat} {rest : List (String × Nat)} {cn : String}
    (hdot : isDotted k = true) (hfs : firstSeg k = cn)
    (h : ∃ l₁ l₂, (k, v) :: rest = l₁ ++ l₂ ∧
      (∀ e ∈ l₁, isDotted e.1 = true ∧ firstSeg e.1 = cn) ∧
      (∀ e ∈ l₂, isDotted e.1 = true → firstSeg e.1 ≠ cn)) :
    ∃ l₁ l₂, rest = l₁ ++ l₂ ∧
      (∀ e ∈ l₁, isDotted e.1 = true ∧ firstSeg e.1 = cn) ∧
      (∀ e ∈ l₂, isDotted e.1 = true → firstSeg e.1 ≠ cn) := by
  obtain ⟨l₁, l₂, hsplit, hl1, hl2⟩ := h
  cases l₁ with
  | nil =>
    rw [List.nil_append] at hsplit
    exact absurd hfs (hl2 (k, v) (by rw [← hsplit]; exact List.mem_cons_self _ _) hdot)
  | cons x l₁' =>
    rw [List.cons_append] at hsplit
    injection hsplit with hx hrest2
    exact ⟨l₁', l₂, hrest2, fun e he => hl1 e (List.mem_cons_of_mem _ he), hl2⟩

theorem block_head_diff {k : String} {v : Nat} {rest : List (String × Nat)} {cn : String}
    (_hdot : isDotted k = true) (hfs : firstSeg k ≠ cn)
    (h : ∃ l₁ l₂, (k, v) :: rest = l₁ ++ l₂ ∧
      (∀ e ∈ l₁, isDotted e.1 = true ∧ firstSeg e.1 = cn) ∧
      (∀ e ∈ l₂, isDotted e.1 = true → firstSeg e.1 ≠ cn)) :
    ∀ e ∈ (k, v) :: rest, isDotted e.1 = true → firstSeg e.1 ≠ cn := by
  obtain ⟨l₁, l₂, hsplit, hl1, hl2⟩ := h
  intro e he
  cases l₁ with
  | nil =>
    rw [List.nil_append] at hsplit
    exact hl2 e (hsplit ▸ he)
  | cons x l₁' =>
    rw [List.cons_append] at hsplit
    injection hsplit with hx hrest2
    have h5 := (hl1 x (List.mem_cons_self _ _)).2
    rw [← hx] at h5
    exact absurd h5 hfs

/-- Under sortedness, distinct keys and prefix-freeness, the loop
inserts under pairwise-distinct `parameters` names: no leaf collides
with a leaf (distinct keys), no leaf with a group (prefix-freeness), and
no group with a group (sorted first-segment blocks are contiguous). -/
theorem grouping_names_nodup : ∀ (l : List (String × Nat)) (cur),
    List.Sorted keyLE l →
    NodupKeys (pendOf cur ++ l) →
    PrefixFree (pendOf cur ++ l) →
    (∀ cn cm, cur = some (cn, cm) → cm ≠ [] ∧ ('.' : Char) ∉ cn.data ∧
      ∃ l₁ l₂, l = l₁ ++ l₂ ∧ (∀ e ∈ l₁, isDotted e.1 = true ∧ firstSeg e.1 = cn) ∧
        (∀ e ∈ l₂, isDotted e.1 = true → firstSeg e.1 ≠ cn)) →
    (grouping cur l).Pairwise (fun e1 e2 => emissionName e1 ≠ emissionName e2) := by
  intro l
  induction l with
  | nil =>
    intro cur _ _ _ _
    cases cur with
    | none =>
      rw [grouping_nil_none]
      exact List.Pairwise.nil
    | some pair =>
      obtain ⟨cn, cm⟩ := pair
      rw [grouping_nil_some]
      exact List.pairwise_singleton _ _
  | cons kv rest ihl =>
    intro cur hsort hnd hpf hcur
    obtain ⟨k, v⟩ := kv
    obtain ⟨hk, hrest⟩ := List.sorted_cons.mp hsort
    cases hdot : isDotted k with
    | false =>
      rw [grouping_cons_leaf hdot]
      have hsubl : (pendOf cur ++ rest).Sublist (pendOf cur ++ (k, v) :: rest) :=
        List.Sublist.append_left (List.sublist_cons_self _ _) _
      have hnd' := nodupKeys_sublist hsubl hnd
      have hpf' := prefixFree_subset (fun x hx => hsubl.subset hx) hpf
      have hcurne : ∀ cn cm, cur = some (cn, cm) → cm ≠ [] :=
        fun cn cm hc => (hcur cn cm hc).1
      refine List.pairwise_cons.mpr ⟨?_, ?_⟩
      · intro e' he' heq
        have heq2 : k = emissionName e' := by
          rw [← firstSeg_of_undotted hdot]
          exact heq
        rcases grouping_name_witness rest cur hcurne e' he' with ⟨v2, hv2, _⟩ | ⟨r, v2, hrv⟩
        · rw [← heq2] at hv2
          exact (List.pairwise_cons.mp (List.pairwise_append.mp hnd).2.1).1 (k, v2) hv2 rfl
        · rw [← heq2] at hrv
          refine hpf (k, v) (List.mem_append_right _ (List.mem_cons_self _ _))
            (k ++ "." ++ r, v2) (hsubl.subset hrv) ?_
          show (k.data ++ ['.']) <+: (k ++ "." ++ r).data
          refine ⟨r.data, ?_⟩
          rw [data_dotjoin, List.append_assoc]
          rfl
      · refine ihl cur hrest hnd' hpf' ?_
        intro cn cm hc
        obtain ⟨h1, h2, hblock⟩ := hcur cn cm hc
        exact ⟨h1, h2, block_tail_leaf hdot hblock⟩
    | true =>
      cases cur with
      | none =>
        rw [grouping_cons_dotted_none hdot]
        have hnd0 : NodupKeys ((k, v) :: rest) := hnd
        have hpf0 : PrefixFree ((k, v) :: rest) := hpf
        refine ihl _ hrest ?_ ?_ ?_
        · rw [pend_new_group hdot, List.singleton_append]
          exact hnd0
        · rw [pend_new_group hdot, List.singleton_append]
          exact hpf0
        · intro cn' cm' hc
          cases hc
          exact ⟨insertAL_ne_nil _ _ _, firstSeg_dotfree k, block_of_sorted hdot hsort⟩
      | some pair =>
        obtain ⟨cn, cm⟩ := pair
        by_cases hfs : firstSeg k = cn
        · rw [grouping_cons_dotted_same hdot hfs]
          have hkey : cn ++ "." ++ restAfter k = k := by
            rw [← hfs]
            exact key_reconstruct_str hdot
          have hfresh : restAfter k ∉ cm.map Prod.fst := by
            intro hm
            obtain ⟨rv, hrv, hrv1⟩ := List.mem_map.mp hm
            refine (List.pairwise_append.mp hnd).2.2 (cn ++ "." ++ rv.1, rv.2)
              (List.mem_map_of_mem _ hrv) (k, v) (List.mem_cons_self _ _) ?_
            show cn ++ "." ++ rv.1 = k
            rw [hrv1]
            exact hkey
          have hpend : pendOf (some (cn, insertAL (restAfter k) v cm)) =
              pendOf (some (cn, cm)) ++ [(k, v)] := by
            show (insertAL (restAfter k) v cm).map _ = cm.map _ ++ [(k, v)]
            rw [insertAL_append_of_fresh hfresh, List.map_append]
            show cm.map _ ++ [(cn ++ "." ++ restAfter k, v)] = cm.map _ ++ [(k, v)]
            rw [hkey]
          refine ihl _ hrest ?_ ?_ ?_
          · rw [hpend, List.append_assoc, List.singleton_append]
            exact hnd
          · rw [hpend, List.append_assoc, List.singleton_append]
            exact hpf
          · intro cn' cm' hc
            cases hc
            obtain ⟨_, h2, hblock⟩ := hcur cn cm rfl
            exact ⟨insertAL_ne_nil _ _ _, h2, block_tail_same hdot hfs hblock⟩
        · rw [grouping_cons_dotted_diff hdot hfs]
          obtain ⟨hcmne, hcndf, hblock⟩ := hcur cn cm rfl
          obtain ⟨rv, hrv⟩ := List.exists_mem_of_ne_nil cm hcmne
          have hw : (cn ++ "." ++ rv.1, rv.2) ∈ pendOf (some (cn, cm)) ++ (k, v) :: rest := by
            refine List.mem_append_left _ ?_
            show (cn ++ "." ++ rv.1, rv.2) ∈ cm.map _
            exact List.mem_map_of_mem _ hrv
          have hnoCn := block_head_diff hdot hfs hblock
          have hcur'ne : ∀ cn' cm',
              (some (firstSeg k, insertAL (restAfter k) v []) :
                Option (String × List (String × Nat))) = some (cn', cm') → cm' ≠ [] := by
            intro cn' cm' h
            cases h
            exact insertAL_ne_nil _ _ _
          refine List.pairwise_cons.mpr ⟨?_, ?_⟩
          · intro e' he' heq
            have heq2 : cn = emissionName e' := heq
            rcases grouping_name_witness rest _ hcur'ne e' he' with ⟨v2, hv2, _⟩ | ⟨r, v2, hrv2⟩
            · rw [← heq2] at hv2
              refine hpf (cn, v2)
                (List.mem_append_right _ (List.mem_cons_of_mem _ hv2)) _ hw ?_
              show (cn.data ++ ['.']) <+: (cn ++ "." ++ rv.1).data
              refine ⟨rv.1.data, ?_⟩
              rw [data_dotjoin, List.append_assoc]
              rfl
            · rw [← heq2] at hrv2
              rcases List.mem_append.mp hrv2 with h2 | h2
              · rw [pend_new_group hdot] at h2
                have h3 := List.mem_singleton.mp h2
                have h4 : k = cn ++ "." ++ r := by
                  injection h3 with ha hb
                  exact ha.symm
                refine hfs ?_
                rw [h4]
                exact (firstSeg_dotjoin hcndf r).1
              · exact hnoCn (cn ++ "." ++ r, v2) (List.mem_cons_of_mem _ h2)
                  (firstSeg_dotjoin hcndf r).2.2 (firstSeg_dotjoin hcndf r).1
          · refine ihl _ hrest ?_ ?_ ?_
            · rw [pend_new_group hdot, List.singleton_append]
              exact nodupKeys_sublist (List.sublist_append_right _ _) hnd
            · rw [pend_new_group hdot, List.singleton_append]
              exact prefixFree_subset (fun x hx => List.mem_append_right _ hx) hpf
            · intro cn' cm' hc
              cases hc
              exact ⟨insertAL_ne_nil _ _ _, firstSeg_dotfree k, block_of_sorted hdot hsort⟩

/-! ### `to_map` kit -/

theorem toMapGo_nil {recur} {acc : List (String × Nat)} : toMapGo recur [] acc = some acc := rfl

theorem toMapGo_tensor {recur} {k : String} {c : Nat} {rest acc} :
    toMapGo recur ((k, .tensor c) :: rest) acc = toMapGo recur rest (insertAL k c acc) := rfl

theorem toMapGo_child {recur} {k : String} {cid : Nat} {rest acc} :
    toMapGo recur ((k, .childStateDict cid) :: rest) acc =
      match recur cid with
      | none => none
      | some sub =>
        toMapGo recur rest (sub.foldl (fun a p => insertAL (k ++ "." ++ p.1) p.2 a) acc) := rfl

theorem toMapFuel_succ {g : Nat} {st : NodeStore} {n : Nat} :
    toMapFuel (g + 1) st n =
      match st[n]? with
      | none => none
      | some d => toMapGo (toMapFuel g st) d.parameters [] := rfl

/-- `to_map` only reads the `parameters` maps of the nodes it visits;
on a child-closed region `P` whose `parameters` are preserved, a store
rewrite preserves the export. -/
theorem toMapFuel_stableP (P : Nat → Prop) (st st' : NodeStore)
    (H : ∀ i, P i → ∀ d, st[i]? = some d →
      (∃ d', st'[i]? = some d' ∧ d'.parameters = d.parameters) ∧
      (∀ kv ∈ d.parameters, ∀ c, kv.2 = StateValue.childStateDict c → P c)) :
    ∀ (g : Nat) (n : Nat) (r : List (String × Nat)), P n →
      toMapFuel g st n = some r → toMapFuel g st' n = some r := by
  intro g
  induction g with
  | zero => intro n r _ h; exact Option.noConfusion h
  | succ g' ihg =>
    intro n r hPn h
    rw [toMapFuel_succ] at h ⊢
    cases hd : st[n]? with
    | none => rw [hd] at h; exact Option.noConfusion h
    | some d =>
      rw [hd] at h
      have h2 : toMapGo (toMapFuel g' st) d.parameters [] = some r := h
      obtain ⟨⟨d', hd', hdp⟩, hch⟩ := H n hPn d hd
      rw [hd']
      show toMapGo (toMapFuel g' st') d'.parameters [] = some r
      rw [hdp]
      have haux : ∀ (l : List (String × StateValue)) (acc : List (String × Nat)),
          (∀ kv ∈ l, ∀ c, kv.2 = StateValue.childStateDict c → P c) →
          ∀ r2, toMapGo (toMapFuel g' st) l acc = some r2 →
            toMapGo (toMapFuel g' st') l acc = some r2 := by
        intro l
        induction l with
        | nil => intro acc _ r2 h2; exact h2
        | cons kv rest ihl =>
          intro acc hcl r2 h2
          obtain ⟨k, vv⟩ := kv
          cases vv with
          | tensor c =>
            rw [toMapGo_tensor] at h2 ⊢
            exact ihl _ (fun kv hkv => hcl kv (List.mem_cons_of_mem _ hkv)) r2 h2
          | childStateDict cid =>
            rw [toMapGo_child] at h2 ⊢
            have hPc : P cid := hcl (k, .childStateDict cid) (List.mem_cons_self _ _) cid rfl
            cases hrec : toMapFuel g' st cid with
            | none => rw [hrec] at h2; exact Option.noConfusion h2
            | some sub =>
              rw [hrec] at h2
              rw [ihg cid sub hPc hrec]
              exact ihl _ (fun kv hkv => hcl kv (List.mem_cons_of_mem _ hkv)) r2 h2
      exact haux d.parameters [] hch r h2

theorem foldl_insertAL_prefixed (k : String) :
    ∀ (sub : List (String × Nat)) (acc : List (String × Nat)),
      NodupKeys (acc ++ sub.map (fun p => (k ++ "." ++ p.1, p.2))) →
      sub.foldl (fun a p => insertAL (k ++ "." ++ p.1) p.2 a) acc =
        acc ++ sub.map (fun p => (k ++ "." ++ p.1, p.2)) := by
  intro sub
  induction sub with
  | nil =>
    intro acc _
    rw [List.map_nil, List.append_nil]
    rfl
  | cons p tl ih =>
    intro acc hnd
    show tl.foldl _ (insertAL (k ++ "." ++ p.1) p.2 acc) = _
    have hfresh : (k ++ "." ++ p.1) ∉ acc.map Prod.fst := by
      intro hm
      obtain ⟨q, hq, hq1⟩ := List.mem_map.mp hm
      refine (List.pairwise_append.mp hnd).2.2 q hq (k ++ "." ++ p.1, p.2) ?_ hq1
      rw [List.map_cons]
      exact List.mem_cons_self _ _
    rw [insertAL_append_of_fresh hfresh]
    have hnd' : NodupKeys ((acc ++ [(k ++ "." ++ p.1, p.2)]) ++
        tl.map (fun p => (k ++ "." ++ p.1, p.2))) := by
      rw [List.append_assoc, List.singleton_append]
      simp only [List.map_cons] at hnd
      exact hnd
    rw [ih _ hnd', List.append_assoc, List.singleton_append]
    simp only [List.map_cons]

/-- Execute `to_map`'s loop along a `FlatRel` derivation: with globally
distinct flat keys every insertion appends, so the loop succeeds and
returns the accumulator extended by the flat export. -/
theorem toMapGo_flat {g : Nat} {st : NodeStore} :
    ∀ {params : List (String × StateValue)} {flat : List (String × Nat)},
      FlatRel g st params flat → ∀ acc, NodupKeys (acc ++ flat) →
      toMapGo (toMapFuel g st) params acc = some (acc ++ flat) := by
  intro params flat h
  induction h with
  | nil =>
    intro acc _
    rw [toMapGo_nil, List.append_nil]
  | tensor k c hrel ih =>
    rename_i rest flat'
    intro acc hnd
    rw [toMapGo_tensor]
    have hfresh : k ∉ acc.map Prod.fst := by
      intro hm
      obtain ⟨q, hq, hq1⟩ := List.mem_map.mp hm
      exact (List.pairwise_append.mp hnd).2.2 q hq (k, c) (List.mem_cons_self _ _) hq1
    rw [insertAL_append_of_fresh hfresh]
    have hnd' : NodupKeys ((acc ++ [(k, c)]) ++ flat') := by
      rw [List.append_assoc, List.singleton_append]
      exact hnd
    rw [ih (acc ++ [(k, c)]) hnd', List.append_assoc, List.singleton_append]
  | child k cid htm hrel ih =>
    rename_i sub rest flat'
    intro acc hnd
    rw [toMapGo_child, htm]
    show toMapGo (toMapFuel g st) rest
      (sub.foldl (fun a p => insertAL (k ++ "." ++ p.1) p.2 a) acc) =
      some (acc ++ (sub.map (fun p => (k ++ "." ++ p.1, p.2)) ++ flat'))
    have hndpre : NodupKeys (acc ++ sub.map (fun p => (k ++ "." ++ p.1, p.2))) := by
      refine nodupKeys_sublist ?_ hnd
      rw [← List.append_assoc]
      exact List.sublist_append_left _ _
    rw [foldl_insertAL_prefixed k sub acc hndpre]
    have hnd' : NodupKeys ((acc ++ sub.map (fun p => (k ++ "." ++ p.1, p.2))) ++ flat') := by
      rw [List.append_assoc]
      exact hnd
    rw [ih _ hnd', List.append_assoc]

theorem realize_nil {recur} {thisId : Nat} {st params} :
    realize recur thisId [] st params = some (thisId, setParams st thisId params) := rfl

theorem realize_leaf {recur} {thisId : Nat} {k : String} {v : Nat} {es st params} :
    realize recur thisId (.leafE k v :: es) st params =
      realize recur thisId es st (insertAL k (.tensor v) params) := rfl

/-- Executing an emission sequence: `realize` succeeds, extends the
store without touching other existing nodes, writes exactly
`params ++ ents` to `thisId`'s `parameters`, and each entry of `ents`
matches its emission — a leaf entry verbatim, a group entry holding a
fresh child whose `to_map` at the final store recovers the group's
sub-map (by the round-trip induction hypothesis `IH` and stability of
`to_map` under the later allocations). -/
theorem realizeRT (f' gsub : Nat)
    (IH : ∀ (st : NodeStore) (cm : List (String × Nat)) (g : Nat),
      NodupKeys cm → PrefixFree cm → maxDots cm < f' → maxDots cm < g →
      ∃ cid st2 sub, fromMapFuel f' st cm = some (cid, st2) ∧
        toMapFuel g st2 cid = some sub ∧ sub.Perm cm)
    (thisId : Nat) :
    ∀ (E : List Emission) (st : NodeStore) (params : List (String × StateValue)),
      thisId < st.length →
      (∀ cn cm, Emission.groupE cn cm ∈ E → NodupKeys cm ∧ PrefixFree cm ∧
        maxDots cm < f' ∧ maxDots cm < gsub) →
      E.Pairwise (fun e1 e2 => emissionName e1 ≠ emissionName e2) →
      (∀ e ∈ E, emissionName e ∉ params.map Prod.fst) →
      ∃ st'' ents,
        realize (fromMapFuel f') thisId E st params = some (thisId, st'') ∧
        st.length ≤ st''.length ∧
        (∀ i, i < st.length → i ≠ thisId → st''[i]? = st[i]?) ∧
        (∀ d', st''[thisId]? = some d' → d'.parameters = params ++ ents) ∧
        List.Forall₂ (fun e kv =>
          match e with
          | Emission.leafE k v => kv = (k, StateValue.tensor v)
          | Emission.groupE cn cm => ∃ cid sub, kv = (cn, StateValue.childStateDict cid) ∧
              toMapFuel gsub st'' cid = some sub ∧ sub.Perm cm) E ents := by
  intro E
  induction E with
  | nil =>
    intro st params hThis hwf hnames hfresh
    have hlen : (setParams st thisId params).length = st.length := length_modifyNode _ _ _
    refine ⟨setParams st thisId params, [], rfl, by omega, ?_, ?_, List.Forall₂.nil⟩
    · intro i _ hne
      unfold setParams
      exact getElem?_modifyNode_ne _ _ (fun he => hne he.symm)
    · intro d' hd'
      unfold setParams at hd'
      rw [getElem?_modifyNode_self] at hd'
      cases h0 : st[thisId]? with
      | none => rw [h0] at hd'; exact Option.noConfusion hd'
      | some d0 =>
        rw [h0] at hd'
        cases hd'
        rw [List.append_nil]
  | cons e es ihE =>
    intro st params hThis hwf hnames hfresh
    obtain ⟨hname_e, hnames'⟩ := List.pairwise_cons.mp hnames
    cases e with
    | leafE k v =>
      rw [realize_leaf]
      have hins : insertAL k (.tensor v) params = params ++ [(k, .tensor v)] :=
        insertAL_append_of_fresh (hfresh _ (List.mem_cons_self _ _)) _
      have hfresh' : ∀ e2 ∈ es, emissionName e2 ∉
          (insertAL k (.tensor v) params).map Prod.fst := by
        intro e2 he2 hm
        rw [hins, List.map_append] at hm
        rcases List.mem_append.mp hm with h2 | h2
        · exact hfresh e2 (List.mem_cons_of_mem _ he2) h2
        · exact hname_e e2 he2 (List.mem_singleton.mp h2).symm
      obtain ⟨st'', ents', hreal, hlen, hR3, hparams, hF2⟩ :=
        ihE st (insertAL k (.tensor v) params) hThis
          (fun cn cm hmem => hwf cn cm (List.mem_cons_of_mem _ hmem)) hnames' hfresh'
      refine ⟨st'', (k, .tensor v) :: ents', hreal, hlen, hR3, ?_, ?_⟩
      · intro d' hd'
        rw [hparams d' hd', hins, List.append_assoc, List.singleton_append]
      · exact List.Forall₂.cons rfl hF2
    | groupE cn cm =>
      obtain ⟨hndcm, hpfcm, hmf, hmg⟩ := hwf cn cm (List.mem_cons_self _ _)
      obtain ⟨cid, st2, sub, hrec, htm, hperm⟩ := IH st cm gsub hndcm hpfcm hmf hmg
      rw [realize_group, hrec]
      obtain ⟨hcid, hlen3, hold3, hnew3, hcd3⟩ := flushFacts f' (structFuel f') hThis hrec
      have hlen23 : (setParent st2 cid (some thisId)).length = st2.length :=
        length_modifyNode _ _ _
      have hThis3 : thisId < (setParent st2 cid (some thisId)).length := by omega
      have hins : insertAL cn (.childStateDict cid) params =
          params ++ [(cn, .childStateDict cid)] :=
        insertAL_append_of_fresh (hfresh _ (List.mem_cons_self _ _)) _
      have hfresh' : ∀ e2 ∈ es, emissionName e2 ∉
          (insertAL cn (.childStateDict cid) params).map Prod.fst := by
        intro e2 he2 hm
        rw [hins, List.map_append] at hm
        rcases List.mem_append.mp hm with h2 | h2
        · exact hfresh e2 (List.mem_cons_of_mem _ he2) h2
        · exact hname_e e2 he2 (List.mem_singleton.mp h2).symm
      obtain ⟨st'', ents', hreal, hlen', hR3', hparams', hF2'⟩ :=
        ihE (setParent st2 cid (some thisId)) (insertAL cn (.childStateDict cid) params)
          hThis3 (fun cn2 cm2 hmem => hwf cn2 cm2 (List.mem_cons_of_mem _ hmem))
          hnames' hfresh'
      have hsub2 : ∀ j, st.length ≤ j → NodeOK st2 j := by
        obtain ⟨_, _, _, h4, _⟩ := structFuel f' st cm cid st2 hrec
        exact h4
      have htm'' : toMapFuel gsub st'' cid = some sub := by
        refine toMapFuel_stableP (fun i => st.length ≤ i) st2 st'' ?_ gsub cid sub
          (by omega) htm
        intro i hPi d hdi
        have hi2 : i < st2.length := lt_length_of_getElem? hdi
        constructor
        · by_cases hic : i = cid
          · have hd3 : (setParent st2 cid (some thisId))[i]? =
                some { d with parent := some thisId } := by
              rw [hic]
              rw [hic] at hdi
              unfold setParent
              rw [getElem?_modifyNode_self, hdi]
              rfl
            refine ⟨{ d with parent := some thisId }, ?_, rfl⟩
            rw [hR3' i (by omega) (by omega), hd3]
          · have hd3 : (setParent st2 cid (some thisId))[i]? = some d := by
              unfold setParent
              rw [getElem?_modifyNode_ne _ _ (fun he => hic he.symm)]
              exact hdi
            refine ⟨d, ?_, rfl⟩
            rw [hR3' i (by omega) (by omega), hd3]
        · intro kv hkv c hc
          obtain ⟨_, hch⟩ := hsub2 i hPi d hdi
          obtain ⟨h1, _, _⟩ := hch kv hkv c hc
          omega
      refine ⟨st'', (cn, .childStateDict cid) :: ents', hreal, by omega, ?_, ?_, ?_⟩
      · intro i hi hne
        rw [hR3' i (by omega) hne]
        exact hold3 i hi
      · intro d' hd'
        rw [hparams' d' hd', hins, List.append_assoc, List.singleton_append]
      · exact List.Forall₂.cons ⟨cid, sub, rfl, htm'', hperm⟩ hF2'

/-- Groups are flushed with at least one accumulated entry. -/
theorem grouping_group_ne_nil : ∀ (l : List (String × Nat)) (cur),
    (∀ cn cm, cur = some (cn, cm) → cm ≠ []) →
    ∀ cn cm, Emission.groupE cn cm ∈ grouping cur l → cm ≠ [] := by
  intro l
  induction l with
  | nil =>
    intro cur hcur cn cm h
    cases cur with
    | none =>
      rw [grouping_nil_none] at h
      exact absurd h (List.not_mem_nil _)
    | some pair =>
      obtain ⟨cn0, cm0⟩ := pair
      rw [grouping_nil_some] at h
      rcases List.mem_cons.mp h with h1 | h1
      · injection h1 with h2 h3
        rw [h3]
        exact hcur cn0 cm0 rfl
      · exact absurd h1 (List.not_mem_nil _)
  | cons kv rest ihl =>
    intro cur hcur cn cm h
    obtain ⟨k, v⟩ := kv
    cases hdot : isDotted k with
    | false =>
      rw [grouping_cons_leaf hdot] at h
      rcases List.mem_cons.mp h with h1 | h1
      · exact Emission.noConfusion h1
      · exact ihl cur hcur cn cm h1
    | true =>
      cases cur with
      | none =>
        rw [grouping_cons_dotted_none hdot] at h
        refine ihl _ ?_ cn cm h
        intro cn' cm' hc
        cases hc
        exact insertAL_ne_nil _ _ _
      | some pair =>
        obtain ⟨cn0, cm0⟩ := pair
        by_cases hfs : firstSeg k = cn0
        · rw [grouping_cons_dotted_same hdot hfs] at h
          refine ihl _ ?_ cn cm h
          intro cn' cm' hc
          cases hc
          exact insertAL_ne_nil _ _ _
        · rw [grouping_cons_dotted_diff hdot hfs] at h
          rcases List.mem_cons.mp h with h1 | h1
          · injection h1 with h2 h3
            rw [h3]
            exact hcur cn0 cm0 rfl
          · refine ihl _ ?_ cn cm h1
            intro cn' cm' hc
            cases hc
            exact insertAL_ne_nil _ _ _

/-- Turn the per-entry conclusions of `realizeRT` into a `FlatRel`
derivation, with flat export a permutation of the emissions' flat
reading. -/
theorem buildFlat {g : Nat} {st'' : NodeStore} :
    ∀ {E : List Emission} {ents : List (String × StateValue)},
      List.Forall₂ (fun e kv =>
        match e with
        | Emission.leafE k v => kv = (k, StateValue.tensor v)
        | Emission.groupE cn cm => ∃ cid sub, kv = (cn, StateValue.childStateDict cid) ∧
            toMapFuel g st'' cid = some sub ∧ sub.Perm cm) E ents →
      ∃ flat, FlatRel g st'' ents flat ∧ flat.Perm (unGroup E) := by
  intro E ents h
  induction h with
  | nil => exact ⟨[], FlatRel.nil, List.Perm.refl _⟩
  | cons hR hF2 ih =>
    rename_i e kv es ents'
    obtain ⟨flat', hrel', hperm'⟩ := ih
    cases e with
    | leafE k v =>
      have hR2 : kv = (k, StateValue.tensor v) := hR
      subst hR2
      exact ⟨(k, v) :: flat', FlatRel.tensor k v hrel', hperm'.cons (k, v)⟩
    | groupE cn cm =>
      have hR2 : ∃ cid sub, kv = (cn, StateValue.childStateDict cid) ∧
          toMapFuel g st'' cid = some sub ∧ sub.Perm cm := hR
      obtain ⟨cid, sub, hkv, htm, hperm⟩ := hR2
      subst hkv
      refine ⟨sub.map (fun p => (cn ++ "." ++ p.1, p.2)) ++ flat',
        FlatRel.child cn cid htm hrel', ?_⟩
      show (sub.map (fun p => (cn ++ "." ++ p.1, p.2)) ++ flat').Perm
        (cm.map (fun rv => (cn ++ "." ++ rv.1, rv.2)) ++ unGroup es)
      exact List.Perm.append (hperm.map _) hperm'

/-- The round trip, by strong induction on the nesting depth: with
distinct, prefix-free keys and enough fuel on both sides, `from_map`
succeeds and `to_map` of the built root returns the input up to
permutation. -/
theorem roundTripAux : ∀ (f : Nat) (st : NodeStore) (m : List (String × Nat)) (g : Nat),
    NodupKeys m → PrefixFree m → maxDots m < f → maxDots m < g →
    ∃ n st' flat, fromMapFuel f st m = some (n, st') ∧
      toMapFuel g st' n = some flat ∧ flat.Perm m := by
  intro f
  induction f with
  | zero => intro st m g _ _ hf _; exact absurd hf (by omega)
  | succ f' ihf =>
    intro st m g hnd hpf hf hg
    cases g with
    | zero => exact absurd hg (by omega)
    | succ g' =>
      have hperm_l : (sortKeys m).Perm m := List.perm_insertionSort keyLE m
      have hnd_l : NodupKeys (sortKeys m) := nodupKeys_perm hperm_l.symm hnd
      have hpf_l : PrefixFree (sortKeys m) := prefixFree_perm hperm_l.symm hpf
      have hsort_l : List.Sorted keyLE (sortKeys m) := List.sorted_insertionSort keyLE m
      have hnd0 : NodupKeys (pendOf none ++ sortKeys m) := hnd_l
      have hpf0 : PrefixFree (pendOf none ++ sortKeys m) := hpf_l
      have hcurNone : ∀ cn cm, (none : Option (String × List (String × Nat))) =
          some (cn, cm) → cm ≠ [] := fun cn cm hc => Option.noConfusion hc
      have hug : (unGroup (grouping none (sortKeys m))).Perm (sortKeys m) :=
        unGroup_grouping_perm (sortKeys m) none hnd0
      have hnames : (grouping none (sortKeys m)).Pairwise
          (fun e1 e2 => emissionName e1 ≠ emissionName e2) :=
        grouping_names_nodup (sortKeys m) none hsort_l hnd0 hpf0
          (fun cn cm hc => Option.noConfusion hc)
      have hwfE : ∀ cn cm, Emission.groupE cn cm ∈ grouping none (sortKeys m) →
          NodupKeys cm ∧ PrefixFree cm ∧ maxDots cm < f' ∧ maxDots cm < g' := by
        intro cn cm hgmem
        have hsubE := group_sub_unGroup (grouping none (sortKeys m)) hgmem
        have hndU : NodupKeys (unGroup (grouping none (sortKeys m))) :=
          nodupKeys_perm hug.symm hnd_l
        have hmem : ∀ rv ∈ cm, (cn ++ "." ++ rv.1, rv.2) ∈ sortKeys m := by
          intro rv hrv
          exact (hug.mem_iff).mp (hsubE.subset (List.mem_map_of_mem _ hrv))
        have hndcm : NodupKeys cm :=
          nodupKeys_of_map_prefix (nodupKeys_sublist hsubE hndU)
        have hcndf : ('.' : Char) ∉ cn.data :=
          grouping_group_dotfree (sortKeys m) none
            (fun cn2 cm2 hc => Option.noConfusion hc) cn cm hgmem
        have hcmne : cm ≠ [] :=
          grouping_group_ne_nil (sortKeys m) none hcurNone cn cm hgmem
        have hbound : ∀ rv ∈ cm, dotsIn rv.1 + 1 ≤ maxDots m := by
          intro rv hrv
          have h1 : dotsIn (cn ++ "." ++ rv.1) ≤ maxDots (sortKeys m) :=
            dotsIn_le_maxDots (hmem rv hrv)
          rw [dotsIn_dotjoin hcndf, maxDots_perm hperm_l] at h1
          omega
        obtain ⟨rv0, hrv0⟩ := List.exists_mem_of_ne_nil cm hcmne
        have hge1 : 1 ≤ maxDots m := by
          have := hbound rv0 hrv0
          omega
        have hcmle : maxDots cm ≤ maxDots m - 1 :=
          maxDots_le_of_forall (fun rv hrv => by have := hbound rv hrv; omega)
        have hpfcm : PrefixFree cm := by
          intro rv hrv rv' hrv' hpre
          obtain ⟨t, ht⟩ := hpre
          refine hpf_l _ (hmem rv hrv) _ (hmem rv' hrv') ?_
          refine ⟨t, ?_⟩
          show ((cn ++ "." ++ rv.1).data ++ ['.']) ++ t = (cn ++ "." ++ rv'.1).data
          rw [data_dotjoin, data_dotjoin, ← ht]
          simp [List.append_assoc]
        exact ⟨hndcm, hpfcm, by omega, by omega⟩
      have hThis1 : st.length < (st ++ [(⟨"", none, []⟩ : StateDictData)]).length := by simp
      obtain ⟨st'', ents, hreal, hlen'', hR3, hparamsEq, hF2⟩ :=
        realizeRT f' g' ihf st.length (grouping none (sortKeys m))
          (st ++ [⟨"", none, []⟩]) [] hThis1 hwfE hnames
          (fun e he hm => absurd hm (List.not_mem_nil _))
      have hfrom : fromMapFuel (f' + 1) st m = some (st.length, st'') := by
        rw [fromMapFuel_succ, fromGo_eq_realize]
        exact hreal
      obtain ⟨flat, hrelFlat, hflatperm⟩ := buildFlat hF2
      have hflat_m : flat.Perm m := hflatperm.trans (hug.trans hperm_l)
      have hndflat : NodupKeys flat := nodupKeys_perm hflat_m.symm hnd
      have hvalid : st.length < st''.length := by
        have h1 : (st ++ [(⟨"", none, []⟩ : StateDictData)]).length ≤ st''.length := hlen''
        simp only [List.length_append, List.length_singleton] at h1
        omega
      have hd'' : st''[st.length]? = some st''[st.length] := List.getElem?_eq_getElem hvalid
      have hpe := hparamsEq _ hd''
      have htogo : toMapGo (toMapFuel g' st'') st''[st.length].parameters [] = some flat := by
        rw [hpe, List.nil_append]
        have h2 := toMapGo_flat hrelFlat [] (show NodupKeys ([] ++ flat) from hndflat)
        rw [List.nil_append] at h2
        exact h2
      have hto : toMapFuel (g' + 1) st'' st.length = some flat := by
        rw [toMapFuel_succ, hd'']
        exact htogo
      exact ⟨st.length, st'', flat, hfrom, hto, hflat_m⟩

/-- Claim C1 (amended): for a flat mapping with pairwise-distinct keys,
no empty segments and no key a dotted prefix of another, `from_map`
succeeds (with fuel beyond the nesting depth, as the Rust recursion is)
and `to_map` of the built root returns exactly the input mapping up to
order of entries (cell identities included). -/
theorem c1_roundtrip_amended :
    ∀ (m : List (String × Nat)) (st : NodeStore) (f g : Nat),
      NodupKeys m → NoEmptySegs m → PrefixFree m → maxDots m < f → maxDots m < g →
      ∃ n st' flat, fromMapFuel f st m = some (n, st') ∧
        toMapFuel g st' n = some flat ∧ flat.Perm m :=
  fun m st f g hnd _ hpf hf hg => roundTripAux f st m g hnd hpf hf hg

/-- Witness for C1 (amended): the mapping `{"a.b": 0, "c": 1}` is
rebuilt and flattened back to itself. -/
theorem c1_roundtrip_amended_witness :
    ∃ n st' flat, fromMapFuel 2 [] [("a.b", 0), ("c", 1)] = some (n, st') ∧
      toMapFuel 2 st' n = some flat ∧ flat.Perm [("a.b", 0), ("c", 1)] :=
  c1_roundtrip_amended [("a.b", 0), ("c", 1)] [] 2 2 (by decide) (by decide) (by decide)
    (by decide) (by decide)

end Raddar
